import Mathlib

/-!
# Shallow embedding of the DEMV debiasing core (`demv.py`)

This file embeds the two components of the repository's core module:

* `balance_set` (the Group Balancer, `demv.py` lines 5-21), and
* `sample` (the Partition Driver, `demv.py` lines 24-56) together with
  `DEMV.fit_transform` (lines 100-122),

and proves the testable properties stated for them.

Modelling conventions:

* A dataframe row is a `List ℤ` of column values; column names are column
  indices (`ℕ`).  A materialized dataframe row carries its pandas index
  label (`IRow := ℕ × Row`); `pandas.DataFrame.append` preserves index
  labels and `DataFrame.drop(labels)` removes *every* row carrying the
  given label, which the embedding reproduces.
* Python floats are embedded as exact rationals `ℚ`; Python `round(x, n)`
  is round-half-to-even at `n` decimal places (`pyRound`).  The Python
  truthiness test `if round_level` treats both `None` and `0` as "no
  rounding" (`applyRound`).
* Python exceptions (`ZeroDivisionError`, sampling from an empty frame,
  tuple-unpacking `ValueError`s, `pop` from an empty list) are embedded as
  `Except Err`; the possibly unbounded `while` loop of `balance_set` is
  run on explicit fuel, `none` meaning the program has not returned within
  the given fuel.
* `DataFrame.sample()` draws one row uniformly at random; randomness is an
  explicit stream `rng : ℕ → ℕ`, the draw at loop counter `i` picking
  position `rng i % len(df)`.
* The root call of `sample` passes the *scalar* `cond=True`.  Conjunctions
  `cond & (d[s] == b)` broadcast it into an elementwise mask, so every
  deeper call's condition is a genuine boolean Series (`Row → Bool` here,
  `sampleNode`); but in the depth-zero base case `d[cond]` is `d[True]`,
  a *column-label* lookup that raises `KeyError: True` on the first
  observed label value (`sampleTop`).
-/

namespace DEMV

/-- A dataset row: the column values, addressed by column index. -/
abbrev Row := List ℤ

/-- A materialized dataframe row: pandas index label together with the row. -/
abbrev IRow := ℕ × Row

/-- Value of column `c` in row `r` (missing columns read as `0`). -/
def colv (r : Row) (c : ℕ) : ℤ := r.getD c 0

/-- The Python exceptions the core can raise. -/
inductive Err where
  /-- `ZeroDivisionError` (division by a zero weight or zero dataset size). -/
  | zeroDiv
  /-- `DataFrame.sample()` on an empty frame. -/
  | emptySample
  /-- `ValueError`: unpacking a 2-tuple into three names (`fit_transform`). -/
  | unpackTooFew
  /-- `ValueError`: unpacking a 3-tuple into two names (recursive case of `sample`). -/
  | unpackTooMany
  /-- `IndexError`: `pop` from an empty group list during reassembly. -/
  | popEmpty
  /-- `KeyError: True`: at depth `n` the condition is still the scalar
  `True` passed by `fit_transform`, and `d[cond]` (`demv.py` line 32) is
  `d[True]` — a *column-label* lookup, not a boolean mask — which raises
  `KeyError: True` since no column is labelled `True`. -/
  | keyErrorTrue
deriving DecidableEq, Repr

/-- Result of running an embedded fragment on fuel: `none` means the fuel ran
out (the Python program has not returned), `some (.error e)` a raised
exception, `some (.ok a)` a normal return. -/
abbrev Res (α : Type) := Option (Except Err α)

/-- Decidable equality of embedded results. -/
instance {e a : Type} [DecidableEq e] [DecidableEq a] : DecidableEq (Except e a)
  | .error x, .error y =>
    if h : x = y then .isTrue (by rw [h]) else .isFalse (by intro hc; cases hc; exact h rfl)
  | .error _, .ok _ => .isFalse (by intro hc; cases hc)
  | .ok _, .error _ => .isFalse (by intro hc; cases hc)
  | .ok x, .ok y =>
    if h : x = y then .isTrue (by rw [h]) else .isFalse (by intro hc; cases hc; exact h rfl)

/-- Round a rational to the nearest integer, ties to even — the rounding mode
of Python's builtin `round`. -/
def roundHalfEven (q : ℚ) : ℤ :=
  let f := ⌊q⌋
  let frac := q - f
  if frac < 1 / 2 then f
  else if 1 / 2 < frac then f + 1
  else if f % 2 = 0 then f else f + 1

/-- Python `round(q, r)` for `r` decimal places, on exact rationals. -/
def pyRound (q : ℚ) (r : ℕ) : ℚ := (roundHalfEven (q * 10 ^ r) : ℚ) / 10 ^ r

/-- `round(q, round_level) if round_level else q` — Python truthiness makes
both `None` and `0` skip the rounding. -/
def applyRound (rl : Option ℕ) (q : ℚ) : ℚ :=
  match rl with
  | none => q
  | some 0 => q
  | some (r + 1) => pyRound q (r + 1)

/-- Loop state of `balance_set`: the current group `df`, the observed weight
`w_obs`, the (possibly rounded) disparity `disp`, the disparity trace, and the
iteration counter `i`. -/
structure BState where
  df : List IRow
  w_obs : ℚ
  disp : ℚ
  disparity : List ℚ
  i : ℕ
deriving DecidableEq, Repr

/-- Return value of `balance_set`: the balanced group, the disparity trace and
the number of iterations performed. -/
structure BalanceOut where
  df : List IRow
  disparity : List ℚ
  iters : ℕ
deriving DecidableEq, Repr

/-- The resampling step of one loop iteration (`demv.py` lines 10-13):
oversample by one row if `w_exp / w_obs > 1` (`df.append(df.sample())`,
keeping the sampled row's index label), undersample if `w_exp / w_obs < 1`
(`df.drop(df.sample().index, axis=0)`, which removes *every* row whose index
label equals the sampled one). -/
def pickStep (w_exp : ℚ) (rng : ℕ → ℕ) (st : BState) : Except Err (List IRow) :=
  if 1 < w_exp / st.w_obs then
    match st.df with
    | [] => .error .emptySample
    | _ :: _ => .ok (st.df ++ [st.df.getD (rng st.i % st.df.length) (0, [])])
  else if w_exp / st.w_obs < 1 then
    match st.df with
    | [] => .error .emptySample
    | _ :: _ =>
      .ok (st.df.filter fun r => r.1 != (st.df.getD (rng st.i % st.df.length) (0, [])).1)
  else .ok st.df

/-- One iteration of the `while` loop of `balance_set` (`demv.py` lines
10-20): resample (`pickStep`), then recompute
`w_obs = len(df) / len(tot_df)` and the disparity (raising
`ZeroDivisionError` when a denominator is zero) and extend the trace. -/
def balanceBody (w_exp : ℚ) (totLen : ℕ) (rl : Option ℕ) (rng : ℕ → ℕ)
    (st : BState) : Except Err BState :=
  match pickStep w_exp rng st with
  | .error e => .error e
  | .ok df' =>
    if totLen = 0 then .error .zeroDiv
    else if ((df'.length : ℚ) / (totLen : ℚ)) = 0 then .error .zeroDiv
    else
      .ok ⟨df', (df'.length : ℚ) / (totLen : ℚ),
        applyRound rl (w_exp / ((df'.length : ℚ) / (totLen : ℚ))),
        st.disparity ++ [applyRound rl (w_exp / ((df'.length : ℚ) / (totLen : ℚ)))],
        st.i + 1⟩

/-- The `while disp != 1 and i != k` loop of `balance_set`, on fuel. -/
def balanceLoop (w_exp : ℚ) (totLen : ℕ) (rl : Option ℕ) (k : ℤ) (rng : ℕ → ℕ) :
    ℕ → BState → Res BalanceOut
  | 0, st =>
    if st.disp = 1 ∨ (st.i : ℤ) = k then some (.ok ⟨st.df, st.disparity, st.i⟩)
    else none
  | fuel + 1, st =>
    if st.disp = 1 ∨ (st.i : ℤ) = k then some (.ok ⟨st.df, st.disparity, st.i⟩)
    else
      match balanceBody w_exp totLen rl rng st with
      | .error e => some (.error e)
      | .ok st' => balanceLoop w_exp totLen rl k rng fuel st'

/-- `balance_set` (`demv.py` lines 5-21).  `totLen` stands for
`len(tot_df)`, the only use the source makes of `tot_df`; `k` is the stop
sentinel (`-1` = unbounded); the initial disparity is computed from the
*passed* `w_obs`, raising `ZeroDivisionError` when it is zero. -/
def balance_set (w_exp w_obs : ℚ) (df : List IRow) (totLen : ℕ) (rl : Option ℕ)
    (k : ℤ) (rng : ℕ → ℕ) (fuel : ℕ) : Res BalanceOut :=
  if w_obs = 0 then some (.error .zeroDiv)
  else
    let disp := applyRound rl (w_exp / w_obs)
    balanceLoop w_exp totLen rl k rng fuel ⟨df, w_obs, disp, [disp], 0⟩

/-- Insert into a sorted list of integers. -/
def insertSorted (x : ℤ) : List ℤ → List ℤ
  | [] => [x]
  | y :: ys => if x ≤ y then x :: y :: ys else y :: insertSorted x ys

/-- Insertion sort on integers. -/
def sortInts : List ℤ → List ℤ
  | [] => []
  | x :: xs => insertSorted x (sortInts xs)

/-- `np.unique`: the distinct values of a list, in sorted order. -/
def uniqInts (xs : List ℤ) : List ℤ := sortInts xs.dedup

/-- The values of column `c` over a dataframe (`d[c]`). -/
def colVals (d : List IRow) (c : ℕ) : List ℤ := d.map fun r => colv r.2 c

/-- `np.unique(d[label])`: the distinct observed label values, sorted. -/
def uniqLabels (d : List IRow) (label : ℕ) : List ℤ := uniqInts (colVals d label)

/-- The cell `g = d[(cond) & (d[label] == l)]` (`demv.py` line 31). -/
def cellOf (d : List IRow) (cond : Row → Bool) (label : ℕ) (l : ℤ) : List IRow :=
  d.filter fun r => cond r.2 && (colv r.2 label == l)

/-- `w_exp = (len(d[cond])/len(d)) * (len(d[d[label] == l])/len(d))`
(`demv.py` line 32). -/
def w_exp_of (d : List IRow) (cond : Row → Bool) (label : ℕ) (l : ℤ) : ℚ :=
  (((d.filter fun r => cond r.2).length : ℚ) / (d.length : ℚ)) *
    (((d.filter fun r => colv r.2 label == l).length : ℚ) / (d.length : ℚ))

/-- `w_obs = len(g)/len(d)` (`demv.py` line 33). -/
def w_obs_of (d : List IRow) (cond : Row → Bool) (label : ℕ) (l : ℤ) : ℚ :=
  ((cellOf d cond label l).length : ℚ) / (d.length : ℚ)

/-- The `balance_set` invocation for one cell (`demv.py` lines 34-35). -/
def balanceCell (d : List IRow) (cond : Row → Bool) (label : ℕ) (l : ℤ)
    (rl : Option ℕ) (stop : ℤ) (rng : ℕ → ℕ) (bfuel : ℕ) : Res BalanceOut :=
  balance_set (w_exp_of d cond label l) (w_obs_of d cond label l)
    (cellOf d cond label l) d.length rl stop rng bfuel

/-- Result of a `sample` call.  The Python function returns tuples of two
different arities: the 2-tuple `(G, iter)` of accumulated groups
(constructor `part`), or — once the group count reaches `limit * L` — the
assembled 3-tuple `(df, disparities, iter)` (constructor `assembled`). -/
inductive SResult where
  | part (G : List (List IRow)) (iter : ℕ)
  | assembled (df : List IRow) (disparities : List (List ℚ)) (iter : ℕ)
deriving DecidableEq, Repr

/-- The `for l in np.unique(d[label])` loop of the base case (`demv.py`
lines 30-38): balance each label cell in turn, appending the balanced group
to `G` and taking the running maximum of the iteration counts; the local
`disparities` list the Python code also accumulates is dropped by the
2-tuple `return G, iter` (line 39) and hence not tracked. -/
def leafLoop (d : List IRow) (label : ℕ) (rl : Option ℕ) (stop : ℤ)
    (rng : ℕ → ℕ) (bfuel : ℕ) (cond : Row → Bool) :
    List ℤ → List (List IRow) → ℕ → Res SResult
  | [], G, iter => some (.ok (.part G iter))
  | l :: ls, G, iter =>
    match balanceCell d cond label l rl stop rng bfuel with
    | none => none
    | some (.error e) => some (.error e)
    | some (.ok out) =>
      leafLoop d label rl stop rng bfuel cond ls (G ++ [out.df]) (max iter out.iters)

/-- `limit = ∏ len(np.unique(d[s]))` over the protected attributes
(`demv.py` lines 50-52). -/
def limitOf (d : List IRow) (s_vars : List ℕ) : ℕ :=
  s_vars.foldl (fun acc s => acc * (uniqInts (colVals d s)).length) 1

/-- A linear congruential step; stands in for numpy's generator state. -/
def lcg (s : ℕ) : ℕ := (1103515245 * s + 12345) % 2147483648

/-- Modelled from the spec: `DataFrame.sample(frac=1, random_state=2)` — the
final reshuffle of the assembled dataset.  The exact permutation drawn by
numpy's seeded Mersenne Twister is outside the source; the spec requires
only a fixed permutation determined by the seed, modelled as a
Fisher-Yates-style selection driven by a deterministic generator seeded at
`2`. -/
def shuffleGo : ℕ → ℕ → List IRow → List IRow
  | 0, _, l => l
  | n + 1, s, l =>
    match l with
    | [] => []
    | _ :: _ =>
      let j := lcg s % l.length
      l.getD j (0, []) :: shuffleGo n (lcg s) (l.eraseIdx j)

/-- The seeded shuffle applied to the reassembled dataset. -/
def shuffle2 (l : List IRow) : List IRow := shuffleGo l.length 2 l

/-- Reassembly (`demv.py` line 54):
`pd.DataFrame(G.pop().append([g for g in G]).sample(frac=1, random_state=2))` —
pop the *last* group (raising `IndexError` on an empty list), append the
remaining groups in order, and shuffle with the fixed seed. -/
def reassemble (G : List (List IRow)) : Except Err (List IRow) :=
  match G.getLast? with
  | none => .error .popEmpty
  | some last => .ok (shuffle2 (last ++ G.dropLast.flatten))

/-- `sample` (`demv.py` lines 24-56) for calls whose `cond` argument is a
boolean Series — every call except the depth-zero root, whose scalar
`cond=True` is modelled separately by `sampleTop`.  As soon as one
conjunction `cond & (d[s] == b)` has been formed, `cond` is an elementwise
mask and `d[cond]` is ordinary boolean row selection, embedded here as a
`Row → Bool` predicate.  The source recurses by an index `i` into `s_vars`;
the embedding recurses on the suffix `rest = s_vars[i:]` of attributes not
yet pinned, keeping the full `s_vars` for the `limit` computation.  Each
recursive call receives a copy of the caller's (still unmodified)
accumulator `G`, so the caller's `G` is passed unchanged; the recursive case
merges `G ++ G1 ++ G2`, and unpacking a child's assembled 3-tuple into
`G1, k1` raises a `ValueError`.  The recursive case returns its own local
`disparities` list, which is still `[]` (line 27): the base case's traces
are dropped by its 2-tuple return. -/
def sampleNode (d : List IRow) (s_vars : List ℕ) (label : ℕ) (rl : Option ℕ)
    (stop : ℤ) (rng : ℕ → ℕ) (bfuel : ℕ) :
    List ℕ → (Row → Bool) → List (List IRow) → Res SResult
  | [], cond, G => leafLoop d label rl stop rng bfuel cond (uniqLabels d label) G 0
  | s :: rest, cond, G =>
    match sampleNode d s_vars label rl stop rng bfuel rest
        (fun row => cond row && (colv row s == 0)) G with
    | none => none
    | some (.error e) => some (.error e)
    | some (.ok (.assembled _ _ _)) => some (.error .unpackTooMany)
    | some (.ok (.part G1 k1)) =>
      match sampleNode d s_vars label rl stop rng bfuel rest
          (fun row => cond row && (colv row s == 1)) G with
      | none => none
      | some (.error e) => some (.error e)
      | some (.ok (.assembled _ _ _)) => some (.error .unpackTooMany)
      | some (.ok (.part G2 k2)) =>
        let Gm := G ++ G1 ++ G2
        let iter := max (max 0 k1) k2
        if Gm.length = limitOf d s_vars * (uniqLabels d label).length then
          match reassemble Gm with
          | .error e => some (.error e)
          | .ok df => some (.ok (.assembled df [] iter))
        else some (.ok (.part Gm iter))

/-- The depth-zero root call of `sample`, whose `cond` argument is the
*scalar* Python `True` passed by `fit_transform` (`demv.py` line 119), not a
boolean Series.

* With a non-empty attribute list the root only recurses: each child gets
  `cond & (d[s] == b)`, and scalar `True & series` *is* elementwise, so the
  children run `sampleNode` under the all-rows mask and the root merges
  their results exactly as `sampleNode`'s recursive case does.
* With an empty attribute list the root is the base case.  Its loop runs
  over `np.unique(d[label])`; on the first observed label, line 31's
  `d[(cond) & (d[label] == l)]` still broadcasts, but line 32's
  `len(d[cond])` is `d[True]` — a column-label lookup — and raises
  `KeyError: True` before any balancing.  Only an empty dataset (no labels,
  loop body never entered) completes, returning the empty `(G, iter)`
  2-tuple. -/
def sampleTop (d : List IRow) (s_vars : List ℕ) (label : ℕ) (rl : Option ℕ)
    (stop : ℤ) (rng : ℕ → ℕ) (bfuel : ℕ) : Res SResult :=
  match s_vars with
  | [] =>
    match uniqLabels d label with
    | [] => some (.ok (.part [] 0))
    | _ :: _ => some (.error .keyErrorTrue)
  | s :: rest =>
    sampleNode d (s :: rest) label rl stop rng bfuel (s :: rest)
      (fun _ => true) []

/-- `DEMV.fit_transform` (`demv.py` lines 100-122): index the input rows
`0, 1, …` (a fresh `RangeIndex`), run `sample` from depth `0` with the scalar
condition `True` and an empty accumulator (`sampleTop`), and unpack the
result as a 3-tuple — a `ValueError` when `sample` returned a 2-tuple.  The
triple collects the returned dataset together with the `disparities` and
`iter` attributes the method stores on the object. -/
def fit_transform (dataset : List Row) (protected_attrs : List ℕ)
    (label_name : ℕ) (rl : Option ℕ) (stop : ℤ) (rng : ℕ → ℕ) (bfuel : ℕ) :
    Res (List IRow × List (List ℚ) × ℕ) :=
  match sampleTop dataset.enum protected_attrs label_name rl stop rng bfuel with
  | none => none
  | some (.error e) => some (.error e)
  | some (.ok (.part _ _)) => some (.error .unpackTooFew)
  | some (.ok (.assembled df disparities iter)) => some (.ok (df, disparities, iter))

/-- The conjunctive condition selecting one protected-attribute combination:
attribute `s_vars[j]` must equal `1` if `bs[j]` and `0` otherwise. -/
def bitsCond (s_vars : List ℕ) (bs : List Bool) (r : Row) : Bool :=
  (s_vars.zip bs).all fun sb => colv r sb.1 == (if sb.2 then 1 else 0)

/-- All assignments of a bit to each attribute, in the order the recursion of
`sample` visits them (`0` branch before `1` branch, head attribute
outermost). -/
def allBits : ℕ → List (List Bool)
  | 0 => [[]]
  | n + 1 => (allBits n).map (false :: ·) ++ (allBits n).map (true :: ·)

/-- The (condition, label value) pairs of the leaf cells of the recursion
subtree rooted at `(rest, cond)`, in visiting order. -/
def leafPairs (d : List IRow) (label : ℕ) :
    List ℕ → (Row → Bool) → List ((Row → Bool) × ℤ)
  | [], cond => (uniqLabels d label).map fun l => (cond, l)
  | s :: rest, cond =>
    leafPairs d label rest (fun row => cond row && (colv row s == 0)) ++
      leafPairs d label rest (fun row => cond row && (colv row s == 1))

/-! ## Basic lemmas on rounding -/

theorem roundHalfEven_intCast (n : ℤ) : roundHalfEven (n : ℚ) = n := by
  unfold roundHalfEven
  simp [Int.floor_intCast]

theorem pyRound_one (r : ℕ) : pyRound 1 r = 1 := by
  unfold pyRound
  rw [one_mul]
  have h10 : ((10 : ℚ) ^ r) = ((10 ^ r : ℤ) : ℚ) := by push_cast; ring
  rw [h10, roundHalfEven_intCast, div_self]
  positivity

theorem applyRound_one (rl : Option ℕ) : applyRound rl 1 = 1 := by
  unfold applyRound
  match rl with
  | none => rfl
  | some 0 => rfl
  | some (r + 1) => exact pyRound_one (r + 1)

/-! ## Inversion lemmas for the Group Balancer -/

theorem pickStep_gt {w_exp : ℚ} {rng : ℕ → ℕ} {st : BState}
    (h1 : 1 < w_exp / st.w_obs) (h2 : st.df ≠ []) :
    pickStep w_exp rng st =
      .ok (st.df ++ [st.df.getD (rng st.i % st.df.length) (0, [])]) := by
  unfold pickStep
  rw [if_pos h1]
  match hd : st.df with
  | [] => exact absurd hd h2
  | _ :: _ => rfl

theorem pickStep_lt {w_exp : ℚ} {rng : ℕ → ℕ} {st : BState}
    (h1 : w_exp / st.w_obs < 1) (h2 : st.df ≠ []) :
    pickStep w_exp rng st =
      .ok (st.df.filter fun r =>
        r.1 != (st.df.getD (rng st.i % st.df.length) (0, [])).1) := by
  unfold pickStep
  rw [if_neg (lt_asymm h1), if_pos h1]
  match hd : st.df with
  | [] => exact absurd hd h2
  | _ :: _ => rfl

/-- Whatever the resampling branch did, a successful loop body leaves the
state with `w_obs` recomputed from the new group, the disparity recomputed
from that `w_obs` with the same rounding policy, and that disparity appended
to the trace. -/
theorem balanceBody_ok_inv {w_exp : ℚ} {tot : ℕ} {rl : Option ℕ} {rng : ℕ → ℕ}
    {st st' : BState} (h : balanceBody w_exp tot rl rng st = .ok st') :
    st'.w_obs = (st'.df.length : ℚ) / (tot : ℚ) ∧
    st'.w_obs ≠ 0 ∧
    st'.disp = applyRound rl (w_exp / st'.w_obs) ∧
    st'.disparity = st.disparity ++ [st'.disp] := by
  unfold balanceBody at h
  cases hp : pickStep w_exp rng st with
  | error e => rw [hp] at h; exact absurd h (by simp)
  | ok df' =>
    rw [hp] at h
    dsimp only at h
    by_cases h0 : tot = 0
    · rw [if_pos h0] at h; exact absurd h (by simp)
    · rw [if_neg h0] at h
      by_cases hw : ((df'.length : ℚ) / (tot : ℚ)) = 0
      · rw [if_pos hw] at h; exact absurd h (by simp)
      · rw [if_neg hw] at h
        cases h
        exact ⟨rfl, hw, rfl, rfl⟩

/-- Invariant of the balancing loop: a successful exit carries a trace whose
last entry is the disparity of the *returned* group (recomputed, with the
rounding policy, from the returned group's size over the full dataset size),
and the loop stopped either because that disparity is `1` or because the
iteration counter hit the cap `k`. -/
theorem balanceLoop_ok_inv (w_exp : ℚ) (tot : ℕ) (rl : Option ℕ) (k : ℤ)
    (rng : ℕ → ℕ) :
    ∀ (fuel : ℕ) (st : BState) (out : BalanceOut),
      st.disparity.getLast? = some st.disp →
      st.disp = applyRound rl (w_exp / st.w_obs) →
      st.w_obs = (st.df.length : ℚ) / (tot : ℚ) →
      balanceLoop w_exp tot rl k rng fuel st = some (.ok out) →
      out.disparity.getLast? =
        some (applyRound rl (w_exp / ((out.df.length : ℚ) / (tot : ℚ)))) ∧
      (applyRound rl (w_exp / ((out.df.length : ℚ) / (tot : ℚ))) = 1 ∨
        (out.iters : ℤ) = k) := by
  intro fuel
  induction fuel with
  | zero =>
    intro st out hlast hdisp hobs h
    rw [balanceLoop] at h
    by_cases hg : st.disp = 1 ∨ (st.i : ℤ) = k
    · rw [if_pos hg] at h
      have hout : out = ⟨st.df, st.disparity, st.i⟩ := by
        cases h; rfl
      subst hout
      refine ⟨by rw [hlast, hdisp, hobs], ?_⟩
      rcases hg with hg | hg
      · exact Or.inl (by rw [← hobs, ← hdisp]; exact hg)
      · exact Or.inr hg
    · rw [if_neg hg] at h
      exact absurd h (by simp)
  | succ fuel ih =>
    intro st out hlast hdisp hobs h
    rw [balanceLoop] at h
    by_cases hg : st.disp = 1 ∨ (st.i : ℤ) = k
    · rw [if_pos hg] at h
      have hout : out = ⟨st.df, st.disparity, st.i⟩ := by
        cases h; rfl
      subst hout
      refine ⟨by rw [hlast, hdisp, hobs], ?_⟩
      rcases hg with hg | hg
      · exact Or.inl (by rw [← hobs, ← hdisp]; exact hg)
      · exact Or.inr hg
    · rw [if_neg hg] at h
      cases hb : balanceBody w_exp tot rl rng st with
      | error e => rw [hb] at h; exact absurd h (by simp)
      | ok st' =>
        rw [hb] at h
        obtain ⟨hw, _, hd, htr⟩ := balanceBody_ok_inv hb
        exact ih st' out (by rw [htr]; exact List.getLast?_concat _)
          hd hw h

/-- C1: for every group passed to the Group Balancer with the unbounded
stop sentinel `-1` (and an observed weight consistent with the group, as
every caller in the source supplies), if `balance_set` returns then the last
disparity it computed equals `1`, where that disparity is
`round(w_exp/w_obs, tolerance)` under the configured rounding policy and
`w_obs` is the returned group's row count over the full dataset's row
count. -/
theorem C1_unbounded_final_disparity_is_one
    (w_exp w_obs : ℚ) (df : List IRow) (tot : ℕ) (rl : Option ℕ)
    (rng : ℕ → ℕ) (fuel : ℕ) (out : BalanceOut)
    (hobs : w_obs = (df.length : ℚ) / (tot : ℚ))
    (hres : balance_set w_exp w_obs df tot rl (-1) rng fuel = some (.ok out)) :
    out.disparity.getLast? =
      some (applyRound rl (w_exp / ((out.df.length : ℚ) / (tot : ℚ)))) ∧
    applyRound rl (w_exp / ((out.df.length : ℚ) / (tot : ℚ))) = 1 := by
  unfold balance_set at hres
  by_cases hw : w_obs = 0
  · rw [if_pos hw] at hres; exact absurd hres (by simp)
  · rw [if_neg hw] at hres
    obtain ⟨h1, h2⟩ := balanceLoop_ok_inv w_exp tot rl (-1) rng fuel
      ⟨df, w_obs, applyRound rl (w_exp / w_obs), [applyRound rl (w_exp / w_obs)], 0⟩
      out rfl rfl hobs hres
    refine ⟨h1, h2.resolve_right ?_⟩
    intro hc
    omega

theorem C1_unbounded_final_disparity_is_one_witness :
    ((1 : ℚ) / 10 = (([((0 : ℕ), ([5] : Row))] : List IRow).length : ℚ) / ((10 : ℕ) : ℚ)) ∧
    ((⟨[(0, [5]), (0, [5])], [2, 1], 1⟩ : BalanceOut).disparity.getLast? =
      some (applyRound none ((2 / 10) /
        (((⟨[(0, [5]), (0, [5])], [2, 1], 1⟩ : BalanceOut).df.length : ℚ) / ((10 : ℕ) : ℚ)))) ∧
    applyRound none ((2 / 10) /
      (((⟨[(0, [5]), (0, [5])], [2, 1], 1⟩ : BalanceOut).df.length : ℚ) / ((10 : ℕ) : ℚ))) = 1) :=
  ⟨by norm_num,
    C1_unbounded_final_disparity_is_one (2 / 10) (1 / 10) [(0, [5])] 10 none
      (fun _ => 0) 3 ⟨[(0, [5]), (0, [5])], [2, 1], 1⟩ (by norm_num)
      (by norm_num [balance_set, balanceLoop, balanceBody, pickStep, applyRound])⟩

/-! ## Step-size facts about one loop iteration (claim C4) -/

theorem getD_mem_of_lt {l : List IRow} {j : ℕ} (hj : j < l.length) (d : IRow) :
    l.getD j d ∈ l := by
  induction l generalizing j with
  | nil => simp at hj
  | cons a t ih =>
    match j with
    | 0 => exact List.mem_cons_self _ _
    | j + 1 =>
      exact List.mem_cons_of_mem _ (ih (by simpa using hj))

/-- When the group's index labels are pairwise distinct, dropping a member
row's label removes exactly one row. -/
theorem filter_ne_fst_length {x : IRow} :
    ∀ {l : List IRow}, (l.map Prod.fst).Nodup → x ∈ l →
      (l.filter fun r => r.1 != x.1).length + 1 = l.length := by
  intro l
  induction l with
  | nil => intro _ hx; simp at hx
  | cons a t ih =>
    intro hnd hx
    rw [List.map_cons, List.nodup_cons] at hnd
    by_cases hax : a.1 = x.1
    · have ht : t.filter (fun r => r.1 != x.1) = t := by
        apply List.filter_eq_self.mpr
        intro r hr
        rw [bne_iff_ne]
        intro he
        apply hnd.1
        have hmem : r.1 ∈ t.map Prod.fst := List.mem_map_of_mem Prod.fst hr
        rw [he, ← hax] at hmem
        exact hmem
      rw [List.filter_cons, if_neg (by simp [hax]), ht, List.length_cons]
    · have hxt : x ∈ t := by
        rcases List.mem_cons.mp hx with h | h
        · exact absurd (congrArg Prod.fst h).symm hax
        · exact h
      have hih := ih hnd.2 hxt
      rw [List.filter_cons, if_pos (by simpa using hax), List.length_cons,
        List.length_cons]
      omega

/-- C4 (amended): every oversampling iteration (`w_exp/w_obs > 1`) of the
Group Balancer's loop appends exactly one sampled row; an undersampling
iteration (`w_exp/w_obs < 1`) removes every row sharing the sampled row's
index label — exactly one row whenever the group's index labels are pairwise
distinct (as they are until an oversampling step first duplicates a label),
but possibly more afterwards. -/
theorem C4_amended_step_changes_size
    (w_exp : ℚ) (tot : ℕ) (rl : Option ℕ) (rng : ℕ → ℕ) (st : BState)
    (h0 : tot ≠ 0) :
    (1 < w_exp / st.w_obs → st.df ≠ [] →
      ∃ st', balanceBody w_exp tot rl rng st = .ok st' ∧
        st'.df.length = st.df.length + 1) ∧
    (w_exp / st.w_obs < 1 → (st.df.map Prod.fst).Nodup → 2 ≤ st.df.length →
      ∃ st', balanceBody w_exp tot rl rng st = .ok st' ∧
        st'.df.length + 1 = st.df.length) := by
  constructor
  · intro h1 h2
    have hlen : (st.df ++ [st.df.getD (rng st.i % st.df.length) (0, [])]).length
        = st.df.length + 1 := by simp
    have hnz : ((st.df ++ [st.df.getD (rng st.i % st.df.length) (0, [])]).length : ℚ)
        / (tot : ℚ) ≠ 0 := by
      rw [hlen]
      exact div_ne_zero (by exact_mod_cast Nat.succ_ne_zero st.df.length)
        (Nat.cast_ne_zero.mpr h0)
    simp only [balanceBody, pickStep_gt h1 h2, if_neg h0, if_neg hnz]
    exact ⟨_, rfl, hlen⟩
  · intro h1 hnd h2
    have hne : st.df ≠ [] := by
      intro he; rw [he] at h2; simp at h2
    have hj : rng st.i % st.df.length < st.df.length :=
      Nat.mod_lt _ (List.length_pos.mpr hne)
    have hmem : st.df.getD (rng st.i % st.df.length) (0, []) ∈ st.df :=
      getD_mem_of_lt hj _
    have hlen := @filter_ne_fst_length
      (st.df.getD (rng st.i % st.df.length) (0, [])) st.df hnd hmem
    have hpos : (st.df.filter fun r =>
        r.1 != (st.df.getD (rng st.i % st.df.length) (0, [])).1).length ≠ 0 := by
      omega
    have hnz : ((st.df.filter fun r =>
        r.1 != (st.df.getD (rng st.i % st.df.length) (0, [])).1).length : ℚ)
        / (tot : ℚ) ≠ 0 :=
      div_ne_zero (Nat.cast_ne_zero.mpr hpos) (Nat.cast_ne_zero.mpr h0)
    simp only [balanceBody, pickStep_lt h1 hne, if_neg h0, if_neg hnz]
    exact ⟨_, rfl, hlen⟩

theorem C4_amended_step_changes_size_witness :
    ((10 : ℕ) ≠ 0) ∧
    ((1 < (7 : ℚ)/20 / (⟨[(0, [0]), (1, [1])], 1/5, 7/4, [7/4], 0⟩ : BState).w_obs →
        (⟨[(0, [0]), (1, [1])], 1/5, 7/4, [7/4], 0⟩ : BState).df ≠ [] →
        ∃ st', balanceBody (7/20) 10 none (fun _ => 0)
            ⟨[(0, [0]), (1, [1])], 1/5, 7/4, [7/4], 0⟩ = .ok st' ∧
          st'.df.length = (⟨[(0, [0]), (1, [1])], 1/5, 7/4, [7/4], 0⟩ : BState).df.length + 1) ∧
      ((7 : ℚ)/20 / (⟨[(0, [0]), (1, [1])], 1/5, 7/4, [7/4], 0⟩ : BState).w_obs < 1 →
        ((⟨[(0, [0]), (1, [1])], 1/5, 7/4, [7/4], 0⟩ : BState).df.map Prod.fst).Nodup →
        2 ≤ (⟨[(0, [0]), (1, [1])], 1/5, 7/4, [7/4], 0⟩ : BState).df.length →
        ∃ st', balanceBody (7/20) 10 none (fun _ => 0)
            ⟨[(0, [0]), (1, [1])], 1/5, 7/4, [7/4], 0⟩ = .ok st' ∧
          st'.df.length + 1 = (⟨[(0, [0]), (1, [1])], 1/5, 7/4, [7/4], 0⟩ : BState).df.length)) :=
  ⟨by decide,
    C4_amended_step_changes_size (7/20) 10 none (fun _ => 0)
      ⟨[(0, [0]), (1, [1])], 1/5, 7/4, [7/4], 0⟩ (by decide)⟩

/-- C4 counterexample: a reachable loop iteration that changes the group size
by `-2`.  With `w_exp = 7/20`, `w_obs = 3/10`, a three-row group inside a
ten-row dataset and the sampling stream that always draws position `0`, the
first iteration oversamples (3 → 4 rows, duplicating index label `0`; this is
the run capped at `k = 1`).  The second iteration — the guard still holds,
since the cap-2 run continues from the same deterministic state — undersamples
by dropping the sampled index label `0`, removing *two* rows (4 → 2; the run
capped at `k = 2`).  The middle conjunct exhibits that single loop body
application directly: it maps the 4-row state reached after the first
iteration to a 2-row state, so its size change is neither `+1` nor `-1`. -/
theorem C4_step_size_counterexample :
    balance_set (7/20) (3/10) [(0, [0]), (1, [1]), (2, [2])] 10 none 1
        (fun _ => 0) 9
      = some (.ok ⟨[(0, [0]), (1, [1]), (2, [2]), (0, [0])], [7/6, 7/8], 1⟩) ∧
    balanceBody (7/20) 10 none (fun _ => 0)
        ⟨[(0, [0]), (1, [1]), (2, [2]), (0, [0])], 2/5, 7/8, [7/6, 7/8], 1⟩
      = .ok ⟨[(1, [1]), (2, [2])], 1/5, 7/4, [7/6, 7/8, 7/4], 2⟩ ∧
    balance_set (7/20) (3/10) [(0, [0]), (1, [1]), (2, [2])] 10 none 2
        (fun _ => 0) 9
      = some (.ok ⟨[(1, [1]), (2, [2])], [7/6, 7/8, 7/4], 2⟩) ∧
    ¬((([(1, [1]), (2, [2])] : List IRow).length : ℤ)
        - (([(0, [0]), (1, [1]), (2, [2]), (0, [0])] : List IRow).length : ℤ) = 1 ∨
      (([(1, [1]), (2, [2])] : List IRow).length : ℤ)
        - (([(0, [0]), (1, [1]), (2, [2]), (0, [0])] : List IRow).length : ℤ) = -1) := by
  refine ⟨?_, ?_, ?_, by decide⟩ <;>
    norm_num [balance_set, balanceLoop, balanceBody, pickStep, applyRound]

/-! ## `np.unique` facts -/

theorem insertSorted_perm (x : ℤ) (l : List ℤ) : List.Perm (insertSorted x l) (x :: l) := by
  induction l with
  | nil => exact List.Perm.refl _
  | cons y ys ih =>
    unfold insertSorted
    by_cases h : x ≤ y
    · rw [if_pos h]
    · rw [if_neg h]
      exact (List.Perm.cons y ih).trans (List.Perm.swap x y ys)

theorem sortInts_perm (l : List ℤ) : List.Perm (sortInts l) l := by
  induction l with
  | nil => exact List.Perm.refl _
  | cons x xs ih => exact (insertSorted_perm x (sortInts xs)).trans (ih.cons x)

theorem uniqInts_mem {a : ℤ} {xs : List ℤ} : a ∈ uniqInts xs ↔ a ∈ xs :=
  ((sortInts_perm xs.dedup).mem_iff).trans (List.mem_dedup)

theorem uniqInts_nodup (xs : List ℤ) : (uniqInts xs).Nodup :=
  ((sortInts_perm xs.dedup).nodup_iff).mpr (List.nodup_dedup xs)

/-! ## Immediate-exit and success facts for `balance_set` -/

/-- With the cap `stop = 0` the loop guard `i != k` fails at once: no
balancing step is performed and the group is returned unchanged. -/
theorem balance_set_stop_zero (w_exp w_obs : ℚ) (df : List IRow) (tot : ℕ)
    (rl : Option ℕ) (rng : ℕ → ℕ) (fuel : ℕ) (hw : w_obs ≠ 0) :
    balance_set w_exp w_obs df tot rl 0 rng fuel =
      some (.ok ⟨df, [applyRound rl (w_exp / w_obs)], 0⟩) := by
  unfold balance_set
  rw [if_neg hw]
  cases fuel <;> simp [balanceLoop]

/-- When the initial disparity is already `1`, the loop exits at once. -/
theorem balance_set_disp_one (w_exp w_obs : ℚ) (df : List IRow) (tot : ℕ)
    (rl : Option ℕ) (k : ℤ) (rng : ℕ → ℕ) (fuel : ℕ) (hw : w_obs ≠ 0)
    (h1 : applyRound rl (w_exp / w_obs) = 1) :
    balance_set w_exp w_obs df tot rl k rng fuel =
      some (.ok ⟨df, [applyRound rl (w_exp / w_obs)], 0⟩) := by
  unfold balance_set
  rw [if_neg hw]
  cases fuel <;> simp [balanceLoop, h1]

/-- A successful `balance_set` run implies the passed observed weight was
nonzero (else line 6 raises `ZeroDivisionError`). -/
theorem balance_set_ok_w_obs_ne {w_exp w_obs : ℚ} {df : List IRow} {tot : ℕ}
    {rl : Option ℕ} {k : ℤ} {rng : ℕ → ℕ} {fuel : ℕ} {out : BalanceOut}
    (h : balance_set w_exp w_obs df tot rl k rng fuel = some (.ok out)) :
    w_obs ≠ 0 := by
  intro hw
  unfold balance_set at h
  rw [if_pos hw] at h
  exact absurd h (by simp)

/-- A successfully balanced cell was non-empty (its observed weight is its
size over the dataset size, and a zero observed weight raises). -/
theorem balanceCell_ok_cell_ne {d : List IRow} {cond : Row → Bool} {label : ℕ}
    {l : ℤ} {rl : Option ℕ} {stop : ℤ} {rng : ℕ → ℕ} {bfuel : ℕ}
    {o : BalanceOut}
    (h : balanceCell d cond label l rl stop rng bfuel = some (.ok o)) :
    cellOf d cond label l ≠ [] := by
  intro hc
  have hw := balance_set_ok_w_obs_ne h
  apply hw
  unfold w_obs_of
  rw [hc]
  simp

/-! ## Structure of the leaf (base-case) loop -/

/-- Inversion for the base-case label loop: a successful result is a `part`
extending the incoming accumulator by one successfully balanced group per
label value, in order. -/
theorem leafLoop_ok_inv {d : List IRow} {label : ℕ} {rl : Option ℕ} {stop : ℤ}
    {rng : ℕ → ℕ} {bfuel : ℕ} {cond : Row → Bool} :
    ∀ {ls : List ℤ} {G : List (List IRow)} {iter : ℕ} {r : SResult},
      leafLoop d label rl stop rng bfuel cond ls G iter = some (.ok r) →
      ∃ G2 it2, r = .part (G ++ G2) it2 ∧
        List.Forall₂ (fun g l => ∃ o,
            balanceCell d cond label l rl stop rng bfuel = some (.ok o) ∧
            o.df = g)
          G2 ls := by
  intro ls
  induction ls with
  | nil =>
    intro G iter r h
    rw [leafLoop] at h
    refine ⟨[], iter, ?_, List.Forall₂.nil⟩
    cases h
    simp
  | cons l ls ih =>
    intro G iter r h
    rw [leafLoop] at h
    cases hb : balanceCell d cond label l rl stop rng bfuel with
    | none => rw [hb] at h; exact absurd h (by simp)
    | some x =>
      cases x with
      | error e => rw [hb] at h; exact absurd h (by simp)
      | ok o =>
        rw [hb] at h
        obtain ⟨G2, it2, hr, hfa⟩ := ih h
        exact ⟨o.df :: G2, it2, by simpa using hr,
          List.Forall₂.cons ⟨o, hb, rfl⟩ hfa⟩

theorem forall₂_exists_of_mem_right {α β : Type} {R : α → β → Prop} :
    ∀ {as : List α} {bs : List β}, List.Forall₂ R as bs →
      ∀ {b}, b ∈ bs → ∃ a, a ∈ as ∧ R a b := by
  intro as bs h
  induction h with
  | nil => intro b hb; simp at hb
  | cons hR htail ih =>
    intro b hb
    rcases List.mem_cons.mp hb with rfl | hb
    · exact ⟨_, List.mem_cons_self _ _, hR⟩
    · obtain ⟨a, ha, hr⟩ := ih hb
      exact ⟨a, List.mem_cons_of_mem _ ha, hr⟩

theorem leafPairs_length (d : List IRow) (label : ℕ) :
    ∀ (rest : List ℕ) (cond : Row → Bool),
      (leafPairs d label rest cond).length =
        2 ^ rest.length * (uniqLabels d label).length := by
  intro rest
  induction rest with
  | nil => intro cond; simp [leafPairs]
  | cons s r ih =>
    intro cond
    simp only [leafPairs, List.length_append, ih, List.length_cons, pow_succ]
    ring

/-- Relation between a successfully balanced group and its (condition, label)
cell: `balance_set` was invoked on that cell with the cell's weights and
returned the group. -/
def BalancedFrom (d : List IRow) (label : ℕ) (rl : Option ℕ) (stop : ℤ)
    (rng : ℕ → ℕ) (bfuel : ℕ) (g : List IRow) (p : (Row → Bool) × ℤ) : Prop :=
  ∃ o, balanceCell d p.1 label p.2 rl stop rng bfuel = some (.ok o) ∧ o.df = g

/-- Master structural lemma for the recursion of `sample`: a call with an
empty accumulator that returns a 2-tuple `part` returns exactly one
successfully balanced group per leaf cell of its subtree, in visiting
order. -/
theorem sampleNode_part_inv {d : List IRow} {s_vars : List ℕ} {label : ℕ}
    {rl : Option ℕ} {stop : ℤ} {rng : ℕ → ℕ} {bfuel : ℕ} :
    ∀ {rest : List ℕ} {cond : Row → Bool} {out : List (List IRow)} {it : ℕ},
      sampleNode d s_vars label rl stop rng bfuel rest cond [] =
        some (.ok (.part out it)) →
      List.Forall₂ (BalancedFrom d label rl stop rng bfuel) out
        (leafPairs d label rest cond) := by
  intro rest
  induction rest with
  | nil =>
    intro cond out it h
    rw [sampleNode] at h
    obtain ⟨G2, it2, hr, hfa⟩ := leafLoop_ok_inv h
    rw [leafPairs]
    cases hr
    exact (List.forall₂_map_right_iff).mpr hfa
  | cons s rest ih =>
    intro cond out it h
    rw [sampleNode] at h
    cases h0 : sampleNode d s_vars label rl stop rng bfuel rest
        (fun row => cond row && (colv row s == 0)) [] with
    | none => rw [h0] at h; exact absurd h (by simp)
    | some x0 =>
      cases x0 with
      | error e => rw [h0] at h; exact absurd h (by simp)
      | ok r0 =>
        cases r0 with
        | assembled df disp itx => rw [h0] at h; exact absurd h (by simp)
        | part G1 k1 =>
          rw [h0] at h
          cases h1 : sampleNode d s_vars label rl stop rng bfuel rest
              (fun row => cond row && (colv row s == 1)) [] with
          | none => rw [h1] at h; exact absurd h (by simp)
          | some x1 =>
            cases x1 with
            | error e => rw [h1] at h; exact absurd h (by simp)
            | ok r1 =>
              cases r1 with
              | assembled df disp itx => rw [h1] at h; exact absurd h (by simp)
              | part G2 k2 =>
                rw [h1] at h
                dsimp only at h
                by_cases hlen : ([] ++ G1 ++ G2).length =
                    limitOf d s_vars * (uniqLabels d label).length
                · rw [if_pos hlen] at h
                  cases hre : reassemble ([] ++ G1 ++ G2) with
                  | error e => rw [hre] at h; exact absurd h (by simp)
                  | ok df => rw [hre] at h; exact absurd h (by simp)
                · rw [if_neg hlen] at h
                  obtain ⟨hout, -⟩ : out = [] ++ G1 ++ G2 ∧
                      it = max (max 0 k1) k2 := by
                    have := Option.some.inj h
                    have := Except.ok.inj this
                    cases this; exact ⟨rfl, rfl⟩
                  subst hout
                  rw [List.nil_append, leafPairs]
                  exact List.rel_append (ih h0) (ih h1)

/-- A `part` result with empty accumulator has one group per leaf cell. -/
theorem sampleNode_part_length {d : List IRow} {s_vars : List ℕ} {label : ℕ}
    {rl : Option ℕ} {stop : ℤ} {rng : ℕ → ℕ} {bfuel : ℕ}
    {rest : List ℕ} {cond : Row → Bool} {out : List (List IRow)} {it : ℕ}
    (h : sampleNode d s_vars label rl stop rng bfuel rest cond [] =
      some (.ok (.part out it))) :
    out.length = 2 ^ rest.length * (uniqLabels d label).length :=
  (sampleNode_part_inv h).length_eq.trans (leafPairs_length d label rest cond)

/-- A subtree that completed without error visited only non-empty cells. -/
theorem sampleNode_part_cells_ne {d : List IRow} {s_vars : List ℕ} {label : ℕ}
    {rl : Option ℕ} {stop : ℤ} {rng : ℕ → ℕ} {bfuel : ℕ}
    {rest : List ℕ} {cond : Row → Bool} {out : List (List IRow)} {it : ℕ}
    (h : sampleNode d s_vars label rl stop rng bfuel rest cond [] =
      some (.ok (.part out it))) :
    ∀ p ∈ leafPairs d label rest cond, cellOf d p.1 label p.2 ≠ [] := by
  intro p hp
  obtain ⟨g, -, o, ho, -⟩ := forall₂_exists_of_mem_right (sampleNode_part_inv h) hp
  exact balanceCell_ok_cell_ne ho

/-- The base case can only return a 2-tuple, never an assembled 3-tuple. -/
theorem sampleNode_nil_part {d : List IRow} {s_vars : List ℕ} {label : ℕ}
    {rl : Option ℕ} {stop : ℤ} {rng : ℕ → ℕ} {bfuel : ℕ}
    {cond : Row → Bool} {G : List (List IRow)} {r : SResult}
    (h : sampleNode d s_vars label rl stop rng bfuel [] cond G =
      some (.ok r)) : ∃ out it, r = .part out it := by
  rw [sampleNode] at h
  obtain ⟨G2, it2, hr, -⟩ := leafLoop_ok_inv h
  exact ⟨G ++ G2, it2, hr⟩

/-- Inversion of a recursive-case call that returned the assembled 3-tuple:
both children returned 2-tuples, the accumulated group count hit
`limit * L`, the dataset is the reassembly-and-shuffle of the collected
groups, and the returned `disparities` list is this call's own local one —
the empty list. -/
theorem sampleNode_cons_assembled_inv {d : List IRow} {s_vars : List ℕ}
    {label : ℕ} {rl : Option ℕ} {stop : ℤ} {rng : ℕ → ℕ} {bfuel : ℕ}
    {s : ℕ} {rest : List ℕ} {cond : Row → Bool} {df : List IRow}
    {disp : List (List ℚ)} {it : ℕ}
    (h : sampleNode d s_vars label rl stop rng bfuel (s :: rest) cond [] =
      some (.ok (.assembled df disp it))) :
    ∃ G1 k1 G2 k2,
      sampleNode d s_vars label rl stop rng bfuel rest
        (fun row => cond row && (colv row s == 0)) [] =
          some (.ok (.part G1 k1)) ∧
      sampleNode d s_vars label rl stop rng bfuel rest
        (fun row => cond row && (colv row s == 1)) [] =
          some (.ok (.part G2 k2)) ∧
      (G1 ++ G2).length = limitOf d s_vars * (uniqLabels d label).length ∧
      reassemble (G1 ++ G2) = .ok df ∧ disp = [] ∧ it = max (max 0 k1) k2 := by
  rw [sampleNode] at h
  cases h0 : sampleNode d s_vars label rl stop rng bfuel rest
      (fun row => cond row && (colv row s == 0)) [] with
  | none => rw [h0] at h; exact absurd h (by simp)
  | some x0 =>
    cases x0 with
    | error e => rw [h0] at h; exact absurd h (by simp)
    | ok r0 =>
      cases r0 with
      | assembled dfx dispx itx => rw [h0] at h; exact absurd h (by simp)
      | part G1 k1 =>
        rw [h0] at h
        cases h1 : sampleNode d s_vars label rl stop rng bfuel rest
            (fun row => cond row && (colv row s == 1)) [] with
        | none => rw [h1] at h; exact absurd h (by simp)
        | some x1 =>
          cases x1 with
          | error e => rw [h1] at h; exact absurd h (by simp)
          | ok r1 =>
            cases r1 with
            | assembled dfx dispx itx => rw [h1] at h; exact absurd h (by simp)
            | part G2 k2 =>
              rw [h1] at h
              dsimp only at h
              by_cases hlen : ([] ++ G1 ++ G2).length =
                  limitOf d s_vars * (uniqLabels d label).length
              · rw [if_pos hlen] at h
                cases hre : reassemble ([] ++ G1 ++ G2) with
                | error e => rw [hre] at h; exact absurd h (by simp)
                | ok dfa =>
                  rw [hre] at h
                  have hinj := Except.ok.inj (Option.some.inj h)
                  injection hinj with hdf hdisp hit
                  subst hdf hdisp hit
                  refine ⟨G1, k1, G2, k2, rfl, rfl, by simpa using hlen, ?_, rfl, rfl⟩
                  rw [show G1 ++ G2 = [] ++ G1 ++ G2 by simp, hre]
              · rw [if_neg hlen] at h
                exact absurd h (by simp)

/-! ## The degenerate depth-zero base case (claim C10) -/

theorem uniqInts_eq_nil_iff {xs : List ℤ} : uniqInts xs = [] ↔ xs = [] := by
  constructor
  · intro h
    by_contra hne
    obtain ⟨a, ha⟩ := List.exists_mem_of_ne_nil xs hne
    exact absurd (uniqInts_mem.mpr ha) (by simp [h])
  · intro h
    subst h
    rfl

theorem uniqLabels_enum_eq_nil_iff {dataset : List Row} {label : ℕ} :
    uniqLabels dataset.enum label = [] ↔ dataset = [] := by
  rw [uniqLabels, uniqInts_eq_nil_iff, colVals, List.map_eq_nil_iff]
  constructor
  · intro h
    have hlen := congrArg List.length h
    simpa [List.enum_length, List.length_eq_zero] using hlen
  · intro h
    subst h
    rfl

/-- C10 (amended): with an empty protected-attribute list `fit_transform`
never returns a dataset, but not by the claimed mechanism.  On a non-empty
dataset the depth-zero base case's first loop iteration evaluates
`len(d[cond])` (line 32) with the scalar condition `True` still unreplaced:
`d[True]` is a column-label lookup and raises `KeyError: True` before any
balancing happens.  Only on an empty dataset does the loop body never run,
so the 2-tuple `(G, iter)` is returned and `fit_transform`'s 3-way unpacking
raises the claimed `ValueError`. -/
theorem C10_amended_empty_attrs_always_raises (dataset : List Row)
    (label_name : ℕ) (rl : Option ℕ) (stop : ℤ) (rng : ℕ → ℕ) (bfuel : ℕ) :
    fit_transform dataset [] label_name rl stop rng bfuel =
      some (.error (if dataset = [] then Err.unpackTooFew else Err.keyErrorTrue)) := by
  cases hu : uniqLabels dataset.enum label_name with
  | nil =>
    have hd : dataset = [] := uniqLabels_enum_eq_nil_iff.mp hu
    subst hd
    simp [fit_transform, sampleTop, uniqLabels, colVals, uniqInts, sortInts]
  | cons a as =>
    have hd : dataset ≠ [] := fun h => by
      rw [uniqLabels_enum_eq_nil_iff.mpr h] at hu
      exact List.noConfusion hu
    rw [if_neg hd]
    simp [fit_transform, sampleTop, hu]

/-- The claimed mechanism refuted on the one-row dataset `[[0]]` with no
protected attributes: the call fails with `KeyError: True` at line 32's
`d[True]` column lookup, not with the tuple-unpacking `ValueError` the claim
describes. -/
theorem C10_empty_attrs_counterexample :
    fit_transform [[0]] [] 0 none 0 (fun _ => 0) 1 =
      some (.error .keyErrorTrue) ∧
    Err.keyErrorTrue ≠ Err.unpackTooFew := by
  constructor
  · rfl
  · decide

/-! ## The returned disparities (claim C6) -/

/-- C6 (amended): a successful `fit_transform` always reports an *empty*
disparities list.  The base case accumulates the per-group traces in a local
list but returns only the 2-tuple `(G, iter)`; the recursive case that
assembles the final dataset returns its own local `disparities`, which is
still the empty list it was initialised to. -/
theorem C6_amended_disparities_always_empty
    (dataset : List Row) (protected_attrs : List ℕ) (label_name : ℕ)
    (rl : Option ℕ) (stop : ℤ) (rng : ℕ → ℕ) (bfuel : ℕ)
    (df : List IRow) (disps : List (List ℚ)) (it : ℕ)
    (h : fit_transform dataset protected_attrs label_name rl stop rng bfuel =
      some (.ok (df, disps, it))) :
    disps = [] := by
  unfold fit_transform at h
  cases protected_attrs with
  | nil =>
    cases hu : uniqLabels dataset.enum label_name with
    | nil => simp [sampleTop, hu] at h
    | cons a as => simp [sampleTop, hu] at h
  | cons s rest =>
    simp only [sampleTop] at h
    cases hroot : sampleNode dataset.enum (s :: rest) label_name rl stop rng
        bfuel (s :: rest) (fun _ => true) [] with
    | none => rw [hroot] at h; exact absurd h (by simp)
    | some x =>
      cases x with
      | error e => rw [hroot] at h; exact absurd h (by simp)
      | ok r =>
        cases r with
        | part G itx => rw [hroot] at h; exact absurd h (by simp)
        | assembled dfx dispx itx =>
          rw [hroot] at h
          have hinj := Except.ok.inj (Option.some.inj h)
          obtain ⟨G1, k1, G2, k2, -, -, -, -, hdisp, -⟩ :=
            sampleNode_cons_assembled_inv hroot
          cases hinj
          exact hdisp

/-- C6 counterexample: a successful debiasing call on a dataset with one
binary protected attribute and one label value (`2^1 × 1 = 2` groups) whose
returned disparities list is empty — not one trace per balanced group as
claimed. -/
theorem C6_disparities_counterexample :
    fit_transform [[0, 0], [1, 0]] [0] 1 none 0 (fun _ => 0) 1
      = some (.ok ([(0, [0, 0]), (1, [1, 0])], [], 0)) ∧
    (leafPairs ([[0, 0], [1, 0]] : List Row).enum 1 [0] (fun _ => true)).length
      = 2 ∧
    ([] : List (List ℚ)).length ≠ 2 := by
  refine ⟨?_, ?_, by decide⟩
  · norm_num [fit_transform, sampleTop, sampleNode, leafLoop, balanceCell, balance_set,
      balanceLoop, balanceBody, pickStep, w_exp_of, w_obs_of, cellOf,
      uniqLabels, uniqInts, colVals, colv, sortInts, insertSorted, applyRound,
      limitOf, reassemble, shuffle2, shuffleGo, lcg, List.enum, List.enumFrom]
  · norm_num [leafPairs, uniqLabels, uniqInts, colVals, colv, sortInts,
      insertSorted, List.enum, List.enumFrom]

/-! ## Determinism (claim C9) -/

/-- C9: two `fit_transform` runs on the same dataset, protected attributes,
label, tolerance, stop value and fuel, whose sampling streams agree draw by
draw (same seed/state), return identical results — including the row order
produced by the final seeded shuffle, which depends only on the assembled
rows. -/
theorem C9_fit_transform_deterministic (dataset : List Row) (attrs : List ℕ)
    (label_name : ℕ) (rl : Option ℕ) (stop : ℤ) (bfuel : ℕ)
    (rng1 rng2 : ℕ → ℕ) (h : ∀ t, rng1 t = rng2 t) :
    fit_transform dataset attrs label_name rl stop rng1 bfuel =
      fit_transform dataset attrs label_name rl stop rng2 bfuel := by
  rw [funext h]

theorem C9_fit_transform_deterministic_witness :
    (∀ t : ℕ, t + 0 = t) ∧
    fit_transform [[0]] [] 0 none 0 (fun t => t + 0) 1 =
      fit_transform [[0]] [] 0 none 0 (fun t => t) 1 :=
  ⟨fun t => Nat.add_zero t,
    C9_fit_transform_deterministic [[0]] [] 0 none 0 1 (fun t => t + 0)
      (fun t => t) (fun t => Nat.add_zero t)⟩

/-! ## The base-case weights (claim C5) -/

/-- The spec's expected weight: `P(condition) × P(label = l)`, probabilities
taken as row-count fractions over the whole dataset. -/
def spec_w_exp (d : List IRow) (cond : Row → Bool) (label : ℕ) (l : ℤ) : ℚ :=
  ((d.countP fun r => cond r.2 : ℕ) : ℚ) / (d.length : ℚ) *
    (((d.countP fun r => colv r.2 label == l : ℕ) : ℚ) / (d.length : ℚ))

/-- The spec's observed weight: rows satisfying the condition *and* carrying
label `l`, over the whole dataset. -/
def spec_w_obs (d : List IRow) (cond : Row → Bool) (label : ℕ) (l : ℤ) : ℚ :=
  ((d.countP fun r => cond r.2 && (colv r.2 label == l) : ℕ) : ℚ) /
    (d.length : ℚ)

theorem w_exp_of_eq_spec (d : List IRow) (cond : Row → Bool) (label : ℕ)
    (l : ℤ) : w_exp_of d cond label l = spec_w_exp d cond label l := by
  unfold w_exp_of spec_w_exp
  rw [List.countP_eq_length_filter, List.countP_eq_length_filter]

theorem w_obs_of_eq_spec (d : List IRow) (cond : Row → Bool) (label : ℕ)
    (l : ℤ) : w_obs_of d cond label l = spec_w_obs d cond label l := by
  unfold w_obs_of spec_w_obs cellOf
  rw [List.countP_eq_length_filter]

/-- C5: in every base-case cell, for the pinned condition `cond` and each
observed label value `l` in order, the Group Balancer is handed exactly the
expected weight `P(cond) × P(label = l)` and the observed weight
`|cond ∧ label = l| / |dataset|`, all counts over the full input dataset,
together with the cell's rows and the full dataset's size. -/
theorem C5_base_case_weights {d : List IRow} {s_vars : List ℕ} {label : ℕ}
    {rl : Option ℕ} {stop : ℤ} {rng : ℕ → ℕ} {bfuel : ℕ}
    {cond : Row → Bool} {out : List (List IRow)} {it : ℕ}
    (h : sampleNode d s_vars label rl stop rng bfuel [] cond [] =
      some (.ok (.part out it))) :
    List.Forall₂ (fun g l => ∃ o,
        balance_set (spec_w_exp d cond label l) (spec_w_obs d cond label l)
            (cellOf d cond label l) d.length rl stop rng bfuel =
          some (.ok o) ∧ o.df = g)
      out (uniqLabels d label) := by
  have hfa := sampleNode_part_inv h
  rw [leafPairs] at hfa
  refine ((List.forall₂_map_right_iff).mp hfa).imp ?_
  intro g l hB
  obtain ⟨o, ho, hdf⟩ := hB
  refine ⟨o, ?_, hdf⟩
  rw [← w_exp_of_eq_spec, ← w_obs_of_eq_spec]
  unfold balanceCell at ho
  exact ho

theorem C5_base_case_weights_witness :
    (sampleNode [((0 : ℕ), ([0] : Row)), (1, [1])] [] 0 none 0 (fun _ => 0) 1
        [] (fun _ => true) [] =
      some (.ok (.part [[(0, [0])], [(1, [1])]] 0))) ∧
    List.Forall₂ (fun g l => ∃ o,
        balance_set (spec_w_exp [((0 : ℕ), ([0] : Row)), (1, [1])]
              (fun _ => true) 0 l)
            (spec_w_obs [((0 : ℕ), ([0] : Row)), (1, [1])] (fun _ => true) 0 l)
            (cellOf [((0 : ℕ), ([0] : Row)), (1, [1])] (fun _ => true) 0 l)
            ([((0 : ℕ), ([0] : Row)), (1, [1])] : List IRow).length
            none 0 (fun _ => 0) 1 =
          some (.ok o) ∧ o.df = g)
      [[(0, [0])], [(1, [1])]]
      (uniqLabels [((0 : ℕ), ([0] : Row)), (1, [1])] 0) := by
  have hyp : sampleNode [((0 : ℕ), ([0] : Row)), (1, [1])] [] 0 none 0
      (fun _ => 0) 1 [] (fun _ => true) [] =
      some (.ok (.part [[(0, [0])], [(1, [1])]] 0)) := by
    norm_num [sampleNode, leafLoop, balanceCell, balance_set, balanceLoop,
      w_exp_of, w_obs_of, cellOf, uniqLabels, uniqInts, colVals, colv,
      sortInts, insertSorted, applyRound]
  exact ⟨hyp, C5_base_case_weights hyp⟩

/-! ## Bit-vector description of the leaf conditions (claims C7, C8) -/

theorem bitsCond_cons (s : ℕ) (rest : List ℕ) (b : Bool) (bs : List Bool)
    (r : Row) :
    bitsCond (s :: rest) (b :: bs) r =
      ((colv r s == (if b then 1 else 0)) && bitsCond rest bs r) := by
  unfold bitsCond
  rw [List.zip_cons_cons, List.all_cons]

theorem cellOf_congr {d : List IRow} {c1 c2 : Row → Bool}
    (h : ∀ r, c1 r = c2 r) (label : ℕ) (l : ℤ) :
    cellOf d c1 label l = cellOf d c2 label l := by
  unfold cellOf
  exact List.filter_congr fun ir _ => by rw [h ir.2]

/-- Every protected-attribute combination (given as one bit per attribute)
together with every observed label value is one of the cells the recursion
visits: some leaf pair pins exactly that combination. -/
theorem leafPairs_complete {d : List IRow} {label : ℕ} :
    ∀ (rest : List ℕ) (cond : Row → Bool) (bs : List Bool),
      bs.length = rest.length → ∀ l ∈ uniqLabels d label,
      ∃ p ∈ leafPairs d label rest cond, p.2 = l ∧
        ∀ r : Row, p.1 r = (cond r && bitsCond rest bs r) := by
  intro rest
  induction rest with
  | nil =>
    intro cond bs hlen l hl
    refine ⟨(cond, l), List.mem_map.mpr ⟨l, hl, rfl⟩, rfl, ?_⟩
    intro r
    have hbs : bs = [] := List.length_eq_zero.mp hlen
    rw [hbs]
    show cond r = (cond r && true)
    rw [Bool.and_true]
  | cons s rest ih =>
    intro cond bs hlen l hl
    match bs, hlen with
    | b :: bs, hlen =>
      have hlen2 : bs.length = rest.length := by simpa using hlen
      cases b with
      | false =>
        obtain ⟨p, hp, hpl, hpr⟩ :=
          ih (fun row => cond row && (colv row s == 0)) bs hlen2 l hl
        refine ⟨p, by rw [leafPairs]; exact List.mem_append_left _ hp, hpl, ?_⟩
        intro r
        rw [hpr r, bitsCond_cons]
        simp [Bool.and_assoc]
      | true =>
        obtain ⟨p, hp, hpl, hpr⟩ :=
          ih (fun row => cond row && (colv row s == 1)) bs hlen2 l hl
        refine ⟨p, by rw [leafPairs]; exact List.mem_append_right _ hp, hpl, ?_⟩
        intro r
        rw [hpr r, bitsCond_cons]
        simp [Bool.and_assoc]

theorem mem_zip_self_map {α β : Type} (f : α → β) :
    ∀ {l : List α} {x : α}, x ∈ l → (x, f x) ∈ l.zip (l.map f) := by
  intro l
  induction l with
  | nil => intro x hx; simp at hx
  | cons a t ih =>
    intro x hx
    rw [List.map_cons, List.zip_cons_cons]
    rcases List.mem_cons.mp hx with rfl | hx
    · exact List.mem_cons_self _ _
    · exact List.mem_cons_of_mem _ (ih hx)

/-- If all visited cells are non-empty (and some label is observed), each
protected attribute takes each of the values `0` and `1` somewhere in the
dataset. -/
theorem value_observed {d : List IRow} {label : ℕ} {s_vars : List ℕ}
    (hcells : ∀ p ∈ leafPairs d label s_vars (fun _ => true),
      cellOf d p.1 label p.2 ≠ [])
    (hL : uniqLabels d label ≠ [])
    {v : ℕ} (hv : v ∈ s_vars) (b : Bool) :
    ∃ ir ∈ d, colv ir.2 v = (if b then 1 else 0) := by
  obtain ⟨l, hl⟩ := List.exists_mem_of_ne_nil _ hL
  obtain ⟨p, hp, hpl, hpr⟩ := leafPairs_complete s_vars (fun _ => true)
    (s_vars.map fun x => if x = v then b else false) (by simp) l hl
  have hcell := hcells p hp
  have hcelleq : cellOf d p.1 label p.2 =
      cellOf d (fun r => bitsCond s_vars
        (s_vars.map fun x => if x = v then b else false) r) label p.2 :=
    cellOf_congr (fun r => by rw [hpr r, Bool.true_and]) _ _
  rw [hcelleq] at hcell
  obtain ⟨ir, hirmem⟩ := List.exists_mem_of_ne_nil _ hcell
  have hirf := List.mem_filter.mp hirmem
  have hbits : bitsCond s_vars
      (s_vars.map fun x => if x = v then b else false) ir.2 = true := by
    have h2 := hirf.2
    simp only [Bool.and_eq_true] at h2
    exact h2.1
  have hzip : (v, b) ∈ s_vars.zip
      (s_vars.map fun x => if x = v then b else false) := by
    have := mem_zip_self_map (fun x => if x = v then b else false) hv
    simpa using this
  have := List.all_eq_true.mp hbits (v, b) hzip
  exact ⟨ir, hirf.1, by simpa using this⟩

/-- C8: if any cell — a protected-attribute combination (one bit per
attribute) paired with an observed label value — contains zero rows, then
whenever the debiasing call returns at all it returns an error: an empty cell
makes the observed weight zero, the disparity computation raises, the
exception propagates through the recursion, and no (partially) rebalanced
dataset is ever produced. -/
theorem C8_empty_cell_fails_atomically
    (dataset : List Row) (s_vars : List ℕ) (label_name : ℕ) (rl : Option ℕ)
    (stop : ℤ) (rng : ℕ → ℕ) (bfuel : ℕ) (bs : List Bool) (l : ℤ)
    (hlen : bs.length = s_vars.length)
    (hl : l ∈ uniqLabels dataset.enum label_name)
    (hempty : cellOf dataset.enum (fun r => bitsCond s_vars bs r)
      label_name l = [])
    (r : Except Err (List IRow × List (List ℚ) × ℕ))
    (h : fit_transform dataset s_vars label_name rl stop rng bfuel = some r) :
    ∃ e, r = .error e := by
  unfold fit_transform at h
  cases s_vars with
  | nil =>
    cases hu : uniqLabels dataset.enum label_name with
    | nil =>
      rw [hu] at hl
      exact absurd hl (List.not_mem_nil l)
    | cons a as =>
      simp only [sampleTop, hu] at h
      exact ⟨.keyErrorTrue, (Option.some.inj h).symm⟩
  | cons s rest =>
    simp only [sampleTop] at h
    cases hroot : sampleNode dataset.enum (s :: rest) label_name rl stop rng
        bfuel (s :: rest) (fun _ => true) [] with
    | none => rw [hroot] at h; exact absurd h (by simp)
    | some x =>
      cases x with
      | error e => rw [hroot] at h; exact ⟨e, (Option.some.inj h).symm⟩
      | ok rr =>
        cases rr with
        | part G it =>
          rw [hroot] at h
          exact ⟨.unpackTooFew, (Option.some.inj h).symm⟩
        | assembled df disp it =>
          exfalso
          obtain ⟨G1, k1, G2, k2, h0, h1, -, -, -, -⟩ :=
            sampleNode_cons_assembled_inv hroot
          obtain ⟨p, hp, hpl, hpr⟩ :=
            leafPairs_complete (s :: rest) (fun _ => true) bs hlen l hl
          have hcne : cellOf dataset.enum p.1 label_name p.2 ≠ [] := by
            rw [leafPairs] at hp
            rcases List.mem_append.mp hp with hp2 | hp2
            · exact sampleNode_part_cells_ne h0 p hp2
            · exact sampleNode_part_cells_ne h1 p hp2
          apply hcne
          rw [hpl]
          calc cellOf dataset.enum p.1 label_name l
              = cellOf dataset.enum
                  (fun r => bitsCond (s :: rest) bs r) label_name l :=
                cellOf_congr (fun r => by rw [hpr r, Bool.true_and]) _ _
            _ = [] := hempty

theorem C8_empty_cell_fails_atomically_witness :
    (([false] : List Bool).length = ([0] : List ℕ).length) ∧
    ((1 : ℤ) ∈ uniqLabels ([[0, 0], [1, 1]] : List Row).enum 1) ∧
    (cellOf ([[0, 0], [1, 1]] : List Row).enum
      (fun r => bitsCond [0] [false] r) 1 1 = []) ∧
    (fit_transform [[0, 0], [1, 1]] [0] 1 none (-1) (fun _ => 0) 5 =
      some (.error .zeroDiv)) ∧
    (∃ e, (Except.error .zeroDiv :
      Except Err (List IRow × List (List ℚ) × ℕ)) = .error e) := by
  have hfit : fit_transform [[0, 0], [1, 1]] [0] 1 none (-1) (fun _ => 0) 5 =
      some (.error .zeroDiv) := by
    norm_num [fit_transform, sampleTop, sampleNode, leafLoop, balanceCell, balance_set,
      balanceLoop, balanceBody, pickStep, w_exp_of, w_obs_of, cellOf,
      uniqLabels, uniqInts, colVals, colv, sortInts, insertSorted, applyRound,
      limitOf, reassemble, shuffle2, shuffleGo, lcg, List.enum, List.enumFrom]
  refine ⟨by decide, by decide, by decide, hfit, ?_⟩
  exact C8_empty_cell_fails_atomically [[0, 0], [1, 1]] [0] 1 none (-1)
    (fun _ => 0) 5 [false] 1 (by decide) (by decide) (by decide) _ hfit

/-! ## Non-binary attributes (claim C7) -/

theorem two_le_length_of_mem_ne {l : List ℤ} {a b : ℤ} (ha : a ∈ l)
    (hb : b ∈ l) (hab : a ≠ b) : 2 ≤ l.length := by
  cases l with
  | nil => simp at ha
  | cons x t =>
    cases t with
    | nil =>
      simp at ha hb
      exact absurd (ha.trans hb.symm) hab
    | cons y u =>
      show 2 ≤ u.length + 1 + 1
      omega

theorem two_le_uniq_col {d : List IRow} {c : ℕ}
    (h0 : ∃ ir ∈ d, colv ir.2 c = 0) (h1 : ∃ ir ∈ d, colv ir.2 c = 1) :
    2 ≤ (uniqInts (colVals d c)).length := by
  obtain ⟨ir0, hm0, hv0⟩ := h0
  obtain ⟨ir1, hm1, hv1⟩ := h1
  exact two_le_length_of_mem_ne
    (uniqInts_mem.mpr (List.mem_map.mpr ⟨ir0, hm0, hv0⟩))
    (uniqInts_mem.mpr (List.mem_map.mpr ⟨ir1, hm1, hv1⟩))
    (by norm_num)

theorem two_pow_le_prod {ns : List ℕ} (h : ∀ x ∈ ns, 2 ≤ x) :
    2 ^ ns.length ≤ ns.prod := by
  induction ns with
  | nil => simp
  | cons x t ih =>
    rw [List.prod_cons, List.length_cons, pow_succ, mul_comm]
    exact Nat.mul_le_mul (h x (List.mem_cons_self _ _))
      (ih fun y hy => h y (List.mem_cons_of_mem _ hy))

theorem three_two_pow_le_prod {ns : List ℕ} (h2 : ∀ x ∈ ns, 2 ≤ x) :
    ∀ {a}, a ∈ ns → 3 ≤ a → 3 * 2 ^ (ns.length - 1) ≤ ns.prod := by
  induction ns with
  | nil => intro a ha; simp at ha
  | cons x t ih =>
    intro a ha h3
    rw [List.prod_cons, List.length_cons, Nat.add_sub_cancel]
    rcases List.mem_cons.mp ha with rfl | hat
    · exact Nat.mul_le_mul h3
        (two_pow_le_prod fun y hy => h2 y (List.mem_cons_of_mem _ hy))
    · have ht := ih (fun y hy => h2 y (List.mem_cons_of_mem _ hy)) hat h3
      have htlen : 1 ≤ t.length := List.length_pos.mpr (List.ne_nil_of_mem hat)
      have hx2 := h2 x (List.mem_cons_self _ _)
      have h2pow : 3 * 2 ^ t.length = 2 * (3 * 2 ^ (t.length - 1)) := by
        obtain ⟨m, hm⟩ : ∃ m, t.length = m + 1 := ⟨t.length - 1, by omega⟩
        rw [hm, Nat.add_sub_cancel, pow_succ]
        ring
      rw [h2pow]
      exact Nat.mul_le_mul hx2 ht

theorem limitOf_eq_prod (d : List IRow) (s_vars : List ℕ) :
    limitOf d s_vars =
      (s_vars.map fun x => (uniqInts (colVals d x)).length).prod := by
  unfold limitOf
  rw [List.prod_eq_foldl, List.foldl_map]

/-- C7 (amended): a protected attribute with three or more distinct observed
values is *not* rejected up front — no cardinality check exists — but the
call still never returns a dataset: whenever it terminates, it terminates
with an error (a division-by-zero at some empty visited cell, or the
tuple-unpacking `ValueError` at the end, the accumulated group count never
matching `limit × L`). -/
theorem C7_amended_nonbinary_never_returns
    (dataset : List Row) (s_vars : List ℕ) (label_name : ℕ) (rl : Option ℕ)
    (stop : ℤ) (rng : ℕ → ℕ) (bfuel : ℕ) (v : ℕ) (hv : v ∈ s_vars)
    (hcard : 3 ≤ (uniqInts (colVals dataset.enum v)).length)
    (r : Except Err (List IRow × List (List ℚ) × ℕ))
    (h : fit_transform dataset s_vars label_name rl stop rng bfuel = some r) :
    ∃ e, r = .error e := by
  unfold fit_transform at h
  cases s_vars with
  | nil => exact absurd hv (List.not_mem_nil v)
  | cons s rest =>
    simp only [sampleTop] at h
    cases hroot : sampleNode dataset.enum (s :: rest) label_name rl stop rng
        bfuel (s :: rest) (fun _ => true) [] with
    | none => rw [hroot] at h; exact absurd h (by simp)
    | some x =>
      cases x with
      | error e => rw [hroot] at h; exact ⟨e, (Option.some.inj h).symm⟩
      | ok rr =>
        cases rr with
        | part G it =>
          rw [hroot] at h
          exact ⟨.unpackTooFew, (Option.some.inj h).symm⟩
        | assembled df disp it =>
          exfalso
          obtain ⟨G1, k1, G2, k2, h0, h1, hlen, hre, -, -⟩ :=
            sampleNode_cons_assembled_inv hroot
          have hG1 : G1.length =
              2 ^ rest.length * (uniqLabels dataset.enum label_name).length :=
            sampleNode_part_length h0
          have hG2 : G2.length =
              2 ^ rest.length * (uniqLabels dataset.enum label_name).length :=
            sampleNode_part_length h1
          have hGne : G1 ++ G2 ≠ [] := by
            intro he
            rw [he] at hre
            unfold reassemble at hre
            simp at hre
          have hL : 1 ≤ (uniqLabels dataset.enum label_name).length := by
            by_contra hc
            have hL0 : (uniqLabels dataset.enum label_name).length = 0 := by
              omega
            apply hGne
            apply List.length_eq_zero.mp
            rw [List.length_append, hG1, hG2, hL0]
            simp
          have hLne : uniqLabels dataset.enum label_name ≠ [] := by
            intro he
            rw [he] at hL
            simp at hL
          have hcells : ∀ p ∈ leafPairs dataset.enum label_name (s :: rest)
              (fun _ => true), cellOf dataset.enum p.1 label_name p.2 ≠ [] := by
            intro p hp
            rw [leafPairs] at hp
            rcases List.mem_append.mp hp with hp2 | hp2
            · exact sampleNode_part_cells_ne h0 p hp2
            · exact sampleNode_part_cells_ne h1 p hp2
          have hboth : ∀ x ∈ s :: rest,
              2 ≤ (uniqInts (colVals dataset.enum x)).length := by
            intro x hx
            have hb0 := value_observed hcells hLne hx false
            have hb1 := value_observed hcells hLne hx true
            exact two_le_uniq_col (by simpa using hb0) (by simpa using hb1)
          have hlim : 3 * 2 ^ ((s :: rest).length - 1) ≤
              limitOf dataset.enum (s :: rest) := by
            rw [limitOf_eq_prod]
            have := @three_two_pow_le_prod
              ((s :: rest).map fun x => (uniqInts (colVals dataset.enum x)).length)
              (fun y hy => by
                obtain ⟨z, hz, rfl⟩ := List.mem_map.mp hy
                exact hboth z hz)
              _ (List.mem_map.mpr ⟨v, hv, rfl⟩) hcard
            simpa using this
          have hkk : (G1 ++ G2).length =
              2 ^ (s :: rest).length *
                (uniqLabels dataset.enum label_name).length := by
            rw [List.length_append, hG1, hG2, List.length_cons, pow_succ]
            ring
          rw [hkk] at hlen
          have hlim_eq : 2 ^ (s :: rest).length =
              limitOf dataset.enum (s :: rest) :=
            Nat.eq_of_mul_eq_mul_right hL hlen
          rw [← hlim_eq] at hlim
          have hsplit : 2 ^ (s :: rest).length = 2 * 2 ^ rest.length := by
            rw [List.length_cons, pow_succ]
            ring
          have hk1 : (s :: rest).length - 1 = rest.length := by simp
          rw [hsplit, hk1] at hlim
          have hpow : 0 < 2 ^ rest.length := pow_pos (by norm_num) _
          rw [mul_comm 3 _, mul_comm 2 _] at hlim
          have h32 : 3 ≤ 2 := Nat.le_of_mul_le_mul_left hlim hpow
          omega

set_option maxHeartbeats 1600000 in
/-- C7 counterexample: with attribute values `{0, 1, 2}` the call does *not*
reject the input up front.  The balancing of the `0`/`1` cells runs first —
the subtree for `A == 0` returns balanced groups with an iteration count of
`1`, i.e. a resampling step was performed — and only afterwards does the call
fail, with the tuple-unpacking `ValueError`, not a cardinality error (no such
check exists in the code). -/
theorem C7_cardinality_counterexample :
    fit_transform [[0, 0], [0, 0], [0, 1], [0, 1], [1, 0], [1, 0], [1, 1],
        [1, 1], [2, 0]] [0] 1 none 1 (fun _ => 0) 5
      = some (.error .unpackTooFew) ∧
    sampleNode ([[0, 0], [0, 0], [0, 1], [0, 1], [1, 0], [1, 0], [1, 1],
        [1, 1], [2, 0]] : List Row).enum [0] 1 none 1 (fun _ => 0) 5 []
        (fun row => (fun _ : Row => true) row && (colv row 0 == 0)) []
      = some (.ok (.part [[(0, [0, 0]), (1, [0, 0]), (0, [0, 0])],
          [(3, [0, 1])]] 1)) ∧
    uniqInts (colVals ([[0, 0], [0, 0], [0, 1], [0, 1], [1, 0], [1, 0],
      [1, 1], [1, 1], [2, 0]] : List Row).enum 0) = [0, 1, 2] := by
  refine ⟨?_, ?_, by decide⟩ <;>
    norm_num [fit_transform, sampleTop, sampleNode, leafLoop, balanceCell, balance_set,
      balanceLoop, balanceBody, pickStep, w_exp_of, w_obs_of, cellOf,
      uniqLabels, uniqInts, colVals, colv, sortInts, insertSorted, applyRound,
      limitOf, reassemble, shuffle2, shuffleGo, lcg, List.enum, List.enumFrom]

theorem C7_amended_nonbinary_never_returns_witness :
    ((0 : ℕ) ∈ ([0] : List ℕ)) ∧
    (3 ≤ (uniqInts (colVals ([[0, 0], [1, 0], [2, 0]] : List Row).enum 0)).length) ∧
    (fit_transform [[0, 0], [1, 0], [2, 0]] [0] 1 none (-1) (fun _ => 0) 5 =
      some (.error .unpackTooFew)) ∧
    (∃ e, (Except.error .unpackTooFew :
      Except Err (List IRow × List (List ℚ) × ℕ)) = .error e) := by
  have hfit : fit_transform [[0, 0], [1, 0], [2, 0]] [0] 1 none (-1)
      (fun _ => 0) 5 = some (.error .unpackTooFew) := by
    norm_num [fit_transform, sampleTop, sampleNode, leafLoop, balanceCell, balance_set,
      balanceLoop, balanceBody, pickStep, w_exp_of, w_obs_of, cellOf,
      uniqLabels, uniqInts, colVals, colv, sortInts, insertSorted, applyRound,
      limitOf, reassemble, shuffle2, shuffleGo, lcg, List.enum, List.enumFrom]
  refine ⟨by decide, by decide, hfit, ?_⟩
  exact C7_amended_nonbinary_never_returns [[0, 0], [1, 0], [2, 0]] [0] 1
    none (-1) (fun _ => 0) 5 0 (by decide) (by decide) _ hfit

/-! ## Multiset bookkeeping for the reassembly (claims C2, C3) -/

theorem getD_eq_get : ∀ (l : List IRow) (j : ℕ) (h : j < l.length) (dflt : IRow),
    l.getD j dflt = l.get ⟨j, h⟩ := by
  intro l
  induction l with
  | nil => intro j h _; simp at h
  | cons a t ih =>
    intro j h dflt
    match j with
    | 0 => rfl
    | j + 1 => exact ih j (by simpa using h) dflt

theorem ofList_get_cons_eraseIdx :
    ∀ (l : List IRow) (j : ℕ) (h : j < l.length),
      (l : Multiset IRow) = l.get ⟨j, h⟩ ::ₘ (l.eraseIdx j : List IRow) := by
  intro l
  induction l with
  | nil => intro j h; simp at h
  | cons a t ih =>
    intro j h
    match j with
    | 0 => exact (Multiset.cons_coe a t).symm
    | j + 1 =>
      have hj : j < t.length := by simpa using h
      calc ((a :: t : List IRow) : Multiset IRow)
          = a ::ₘ (t : List IRow) := (Multiset.cons_coe a t).symm
        _ = a ::ₘ (t.get ⟨j, hj⟩ ::ₘ (t.eraseIdx j : List IRow)) := by
            rw [ih j hj]
        _ = t.get ⟨j, hj⟩ ::ₘ (a ::ₘ (t.eraseIdx j : List IRow)) :=
            Multiset.cons_swap _ _ _
        _ = t.get ⟨j, hj⟩ ::ₘ ((a :: t.eraseIdx j : List IRow) : Multiset IRow) := by
            rw [Multiset.cons_coe]

/-- The seeded shuffle is a permutation: it preserves the row multiset. -/
theorem shuffleGo_multiset :
    ∀ (n s : ℕ) (l : List IRow), (shuffleGo n s l : Multiset IRow) = l := by
  intro n
  induction n with
  | zero => intro s l; rfl
  | succ n ih =>
    intro s l
    match l with
    | [] => rfl
    | a :: t =>
      have hj : lcg s % (a :: t).length < (a :: t).length :=
        Nat.mod_lt _ (by simp)
      show (((a :: t).getD (lcg s % (a :: t).length) (0, []) ::
          shuffleGo n (lcg s) ((a :: t).eraseIdx (lcg s % (a :: t).length))
            : List IRow) : Multiset IRow) = _
      rw [← Multiset.cons_coe, ih, getD_eq_get _ _ hj]
      exact (ofList_get_cons_eraseIdx (a :: t) _ hj).symm

theorem shuffle2_multiset (l : List IRow) :
    (shuffle2 l : Multiset IRow) = l := shuffleGo_multiset _ _ _

theorem ofList_flatten : ∀ (G : List (List IRow)),
    (G.flatten : Multiset IRow) = (G.map Multiset.ofList).sum := by
  intro G
  induction G with
  | nil => rfl
  | cons g G ih =>
    show ((g ++ G.flatten : List IRow) : Multiset IRow) = _
    rw [← Multiset.coe_add, ih, List.map_cons, List.sum_cons]

/-- The reassembly (`pop` the last group, append the rest, shuffle) returns
exactly the multiset union of all collected groups. -/
theorem reassemble_ok_multiset {G : List (List IRow)} {df : List IRow}
    (h : reassemble G = .ok df) :
    (df : Multiset IRow) = (G.map Multiset.ofList).sum := by
  unfold reassemble at h
  cases hg : G.getLast? with
  | none => rw [hg] at h; exact absurd h (by simp)
  | some last =>
    rw [hg] at h
    have hdf : df = shuffle2 (last ++ G.dropLast.flatten) :=
      (Except.ok.inj h).symm
    subst hdf
    rw [shuffle2_multiset, ← Multiset.coe_add, ofList_flatten]
    have hGlast : G.dropLast ++ [last] = G :=
      List.dropLast_append_getLast? last hg
    calc ((last : List IRow) : Multiset IRow) +
          (G.dropLast.map Multiset.ofList).sum
        = (G.dropLast.map Multiset.ofList).sum + last :=
          add_comm _ _
      _ = ((G.dropLast.map Multiset.ofList) ++
            [(last : Multiset IRow)]).sum := by rw [List.sum_append]; simp
      _ = ((G.dropLast ++ [last]).map Multiset.ofList).sum := by
          rw [List.map_append]; rfl
      _ = (G.map Multiset.ofList).sum := by rw [hGlast]

theorem sum_map_add_multiset {α : Type} (f g : α → Multiset IRow) :
    ∀ (l : List α),
      (l.map fun v => f v + g v).sum = (l.map f).sum + (l.map g).sum := by
  intro l
  induction l with
  | nil => simp
  | cons a t ih =>
    simp only [List.map_cons, List.sum_cons, ih]
    rw [add_add_add_comm]

theorem sum_single_occurrence {ls : List ℤ} :
    ls.Nodup → ∀ {v : ℤ}, v ∈ ls → ∀ (m : Multiset IRow),
      (ls.map fun u => if v = u then m else 0).sum = m := by
  induction ls with
  | nil => intro _ v hv; simp at hv
  | cons a t ih =>
    intro hnd v hv m
    rw [List.nodup_cons] at hnd
    rcases List.mem_cons.mp hv with rfl | hvt
    · rw [List.map_cons, List.sum_cons, if_pos rfl]
      have hz : (t.map fun u => if v = u then m else 0).sum = 0 :=
        List.sum_eq_zero fun x hx => by
          obtain ⟨u, hu, rfl⟩ := List.mem_map.mp hx
          rw [if_neg]
          intro he
          exact hnd.1 (he ▸ hu)
      rw [hz, add_zero]
    · rw [List.map_cons, List.sum_cons, if_neg, ih hnd.2 hvt m, zero_add]
      intro he
      exact hnd.1 (he ▸ hvt)

/-- Partitioning a list of rows by the value of a function, over a duplicate
free list of values covering all rows, reproduces the row multiset. -/
theorem sum_filter_partition (f : IRow → ℤ) :
    ∀ (D : List IRow) (ls : List ℤ), ls.Nodup → (∀ ir ∈ D, f ir ∈ ls) →
      (ls.map fun v => ((D.filter fun ir => f ir == v) : Multiset IRow)).sum
        = (D : Multiset IRow) := by
  intro D
  induction D with
  | nil =>
    intro ls _ _
    rw [show ((([] : List IRow) : Multiset IRow)) = 0 from rfl]
    exact List.sum_eq_zero fun x hx => by
      obtain ⟨u, hu, rfl⟩ := List.mem_map.mp hx
      simp
  | cons x t ih =>
    intro ls hnd hall
    have hx := hall x (List.mem_cons_self _ _)
    have hstep : ∀ v ∈ ls,
        (((x :: t).filter fun ir => f ir == v) : Multiset IRow)
          = (if f x = v then ({x} : Multiset IRow) else 0) +
            ((t.filter fun ir => f ir == v) : Multiset IRow) := by
      intro v _
      rw [List.filter_cons]
      by_cases hfx : f x = v
      · rw [if_pos (by simpa using hfx), if_pos hfx, ← Multiset.cons_coe,
          ← Multiset.singleton_add]
      · rw [if_neg (by simpa using hfx), if_neg hfx, zero_add]
    rw [List.map_eq_map_iff.mpr hstep, sum_map_add_multiset,
      sum_single_occurrence hnd hx,
      ih ls hnd (fun ir h => hall ir (List.mem_cons_of_mem _ h)),
      Multiset.singleton_add, Multiset.cons_coe]

/-- Summing the label cells of one pinned combination gives exactly the rows
satisfying the combination's condition. -/
theorem cells_label_sum (d : List IRow) (label : ℕ) (cond : Row → Bool) :
    ((uniqLabels d label).map fun l =>
        ((cellOf d cond label l) : Multiset IRow)).sum
      = ((d.filter fun ir => cond ir.2) : Multiset IRow) := by
  have hcell : ∀ l ∈ uniqLabels d label, ((cellOf d cond label l) : Multiset IRow) =
      (((d.filter fun ir => cond ir.2).filter
        fun ir => colv ir.2 label == l) : Multiset IRow) := by
    intro l _
    unfold cellOf
    rw [List.filter_filter]
    congr 1
    exact List.filter_congr fun ir _ => Bool.and_comm _ _
  rw [List.map_eq_map_iff.mpr hcell]
  apply sum_filter_partition (fun ir => colv ir.2 label)
  · exact uniqInts_nodup _
  · intro ir hir
    exact uniqInts_mem.mpr
      (List.mem_map.mpr ⟨ir, (List.mem_filter.mp hir).1, rfl⟩)

/-- Splitting on a binary attribute loses no rows. -/
theorem filter_binary_split (d : List IRow) (cond : Row → Bool) (s : ℕ)
    (hbin : ∀ ir ∈ d, colv ir.2 s = 0 ∨ colv ir.2 s = 1) :
    ((d.filter fun ir => cond ir.2 && (colv ir.2 s == 0)) : Multiset IRow) +
      ((d.filter fun ir => cond ir.2 && (colv ir.2 s == 1)) : Multiset IRow)
    = ((d.filter fun ir => cond ir.2) : Multiset IRow) := by
  induction d with
  | nil => simp
  | cons x t ih =>
    have iht := ih fun ir h => hbin ir (List.mem_cons_of_mem _ h)
    rw [List.filter_cons, List.filter_cons, List.filter_cons]
    cases hcx : cond x.2 with
    | false =>
      rw [if_neg (by simp [hcx]), if_neg (by simp [hcx]), if_neg (by simp [hcx])]
      exact iht
    | true =>
      rcases hbin x (List.mem_cons_self _ _) with h0 | h1
      · rw [if_pos (by simp [hcx, h0]), if_neg (by simp [hcx, h0]),
          if_pos (by simp [hcx]), ← Multiset.cons_coe, ← Multiset.cons_coe,
          Multiset.cons_add, iht]
      · rw [if_neg (by simp [hcx, h1]), if_pos (by simp [hcx, h1]),
          if_pos (by simp [hcx]), ← Multiset.cons_coe, ← Multiset.cons_coe,
          Multiset.add_cons, iht]

/-- Summing all leaf cells of a subtree gives exactly the rows satisfying the
subtree's running condition (for binary attribute values). -/
theorem leafPairs_cells_sum (d : List IRow) (label : ℕ) :
    ∀ (rest : List ℕ) (cond : Row → Bool),
      (∀ ir ∈ d, ∀ s ∈ rest, colv ir.2 s = 0 ∨ colv ir.2 s = 1) →
      ((leafPairs d label rest cond).map fun p =>
          ((cellOf d p.1 label p.2) : Multiset IRow)).sum
        = ((d.filter fun ir => cond ir.2) : Multiset IRow) := by
  intro rest
  induction rest with
  | nil =>
    intro cond _
    rw [leafPairs, List.map_map]
    exact cells_label_sum d label cond
  | cons s rest ih =>
    intro cond hbin
    rw [leafPairs, List.map_append, List.sum_append]
    rw [ih (fun row => cond row && (colv row s == 0))
        (fun ir h v hv => hbin ir h v (List.mem_cons_of_mem _ hv)),
      ih (fun row => cond row && (colv row s == 1))
        (fun ir h v hv => hbin ir h v (List.mem_cons_of_mem _ hv))]
    exact filter_binary_split d cond s
      fun ir h => hbin ir h s (List.mem_cons_self _ _)

/-! ## Exact behaviour with `stop = 0` (claim C3) -/

theorem w_obs_of_ne_zero {d : List IRow} {cond : Row → Bool} {label : ℕ}
    {l : ℤ} (hd : d ≠ []) (hcell : cellOf d cond label l ≠ []) :
    w_obs_of d cond label l ≠ 0 := by
  unfold w_obs_of
  exact div_ne_zero
    (Nat.cast_ne_zero.mpr (List.length_pos.mpr hcell).ne')
    (Nat.cast_ne_zero.mpr (List.length_pos.mpr hd).ne')

/-- With `stop = 0` every cell is returned unchanged after zero iterations,
so the base case returns exactly its (non-empty) cells in label order. -/
theorem leafLoop_stop_zero {d : List IRow} {label : ℕ} {rl : Option ℕ}
    {rng : ℕ → ℕ} {bfuel : ℕ} {cond : Row → Bool} (hd : d ≠ []) :
    ∀ (ls : List ℤ), (∀ l ∈ ls, cellOf d cond label l ≠ []) →
      ∀ (G : List (List IRow)) (iter : ℕ),
        leafLoop d label rl 0 rng bfuel cond ls G iter =
          some (.ok (.part (G ++ ls.map fun l => cellOf d cond label l) iter)) := by
  intro ls
  induction ls with
  | nil => intro _ G iter; rw [leafLoop]; simp
  | cons l ls ih =>
    intro hcells G iter
    have hw : w_obs_of d cond label l ≠ 0 :=
      w_obs_of_ne_zero hd (hcells l (List.mem_cons_self _ _))
    have hbc : balanceCell d cond label l rl 0 rng bfuel =
        some (.ok ⟨cellOf d cond label l,
          [applyRound rl (w_exp_of d cond label l / w_obs_of d cond label l)],
          0⟩) := by
      unfold balanceCell
      exact balance_set_stop_zero _ _ _ _ _ _ _ hw
    rw [leafLoop, hbc]
    dsimp only
    rw [ih (fun x hx => hcells x (List.mem_cons_of_mem _ hx)) _ _]
    have hmax : max iter 0 = iter := Nat.max_eq_left (Nat.zero_le _)
    rw [hmax]
    congr 1
    simp

theorem nodup_binary_le_two :
    ∀ {l : List ℤ}, l.Nodup → (∀ x ∈ l, x = 0 ∨ x = 1) → l.length ≤ 2 := by
  intro l hnd hsub
  match l with
  | [] => simp
  | [a] => simp
  | [a, b] => simp
  | a :: b :: c :: t =>
    exfalso
    simp only [List.nodup_cons, List.mem_cons] at hnd
    have ha := hsub a (by simp)
    have hb := hsub b (by simp)
    have hc := hsub c (by simp)
    have hab : a ≠ b := fun he => hnd.1 (Or.inl he)
    have hac : a ≠ c := fun he => hnd.1 (Or.inr (Or.inl he))
    have hbc : b ≠ c := fun he => hnd.2.1 (Or.inl he)
    rcases ha with rfl | rfl <;> rcases hb with rfl | rfl <;>
      rcases hc with rfl | rfl <;> simp_all

theorem uniq_len_two {xs : List ℤ} (hsub : ∀ x ∈ xs, x = 0 ∨ x = 1)
    (h0 : (0 : ℤ) ∈ xs) (h1 : (1 : ℤ) ∈ xs) : (uniqInts xs).length = 2 :=
  le_antisymm
    (nodup_binary_le_two (uniqInts_nodup xs)
      fun x hx => hsub x (uniqInts_mem.mp hx))
    (two_le_length_of_mem_ne (uniqInts_mem.mpr h0) (uniqInts_mem.mpr h1)
      (by norm_num))

/-- For binary attributes with both values observed, `limit = 2^k`. -/
theorem limit_binary {d : List IRow} {s_vars : List ℕ}
    (hbin : ∀ ir ∈ d, ∀ s ∈ s_vars, colv ir.2 s = 0 ∨ colv ir.2 s = 1)
    (hobs : ∀ s ∈ s_vars, (∃ ir ∈ d, colv ir.2 s = 0) ∧
      (∃ ir ∈ d, colv ir.2 s = 1)) :
    limitOf d s_vars = 2 ^ s_vars.length := by
  rw [limitOf_eq_prod]
  have h2 : ∀ s ∈ s_vars, (uniqInts (colVals d s)).length = 2 := by
    intro s hs
    obtain ⟨⟨ir0, hm0, hv0⟩, ⟨ir1, hm1, hv1⟩⟩ := hobs s hs
    apply uniq_len_two
    · intro x hx
      obtain ⟨ir, hir, rfl⟩ := List.mem_map.mp hx
      exact hbin ir hir s hs
    · exact List.mem_map.mpr ⟨ir0, hm0, hv0⟩
    · exact List.mem_map.mpr ⟨ir1, hm1, hv1⟩
  rw [List.map_eq_map_iff.mpr fun s hs => h2 s hs]
  induction s_vars with
  | nil => rfl
  | cons s t ih =>
    rw [List.map_cons, List.prod_cons,
      ih (fun ir hir v hv => hbin ir hir v (List.mem_cons_of_mem _ hv))
        (fun v hv => hobs v (List.mem_cons_of_mem _ hv))
        (fun v hv => h2 v (List.mem_cons_of_mem _ hv)),
      List.length_cons, pow_succ]
    ring

/-- With `stop = 0`, every strictly-below-root node of the recursion returns
the 2-tuple of its subtree's unchanged cells with iteration count `0`. -/
theorem sampleNode_stop_zero {d : List IRow} {s_vars : List ℕ} {label : ℕ}
    {rl : Option ℕ} {rng : ℕ → ℕ} {bfuel : ℕ} (hd : d ≠ [])
    (hlimit : limitOf d s_vars = 2 ^ s_vars.length)
    (hL : 1 ≤ (uniqLabels d label).length) :
    ∀ (rest : List ℕ) (cond : Row → Bool), rest.length < s_vars.length →
      (∀ p ∈ leafPairs d label rest cond, cellOf d p.1 label p.2 ≠ []) →
      sampleNode d s_vars label rl 0 rng bfuel rest cond []
        = some (.ok (.part ((leafPairs d label rest cond).map
            fun p => cellOf d p.1 label p.2) 0)) := by
  intro rest
  induction rest with
  | nil =>
    intro cond hm hcells
    rw [sampleNode,
      leafLoop_stop_zero hd _
        (fun l hl => hcells (cond, l) (List.mem_map.mpr ⟨l, hl, rfl⟩)) [] 0]
    rw [leafPairs]
    congr 1
    simp [List.map_map]
  | cons s rest ih =>
    intro cond hm hcells
    have hm2 : rest.length < s_vars.length := by
      simp only [List.length_cons] at hm
      omega
    have hc0 : ∀ p ∈ leafPairs d label rest
        (fun row => cond row && (colv row s == 0)),
        cellOf d p.1 label p.2 ≠ [] := by
      intro p hp
      exact hcells p (by rw [leafPairs]; exact List.mem_append_left _ hp)
    have hc1 : ∀ p ∈ leafPairs d label rest
        (fun row => cond row && (colv row s == 1)),
        cellOf d p.1 label p.2 ≠ [] := by
      intro p hp
      exact hcells p (by rw [leafPairs]; exact List.mem_append_right _ hp)
    rw [sampleNode, ih _ hm2 hc0, ih _ hm2 hc1]
    dsimp only
    rw [if_neg ?_]
    · rw [leafPairs]
      congr 2
      simp
    · intro hcon
      rw [List.nil_append, ← List.map_append, List.length_map,
        ← leafPairs] at hcon
      rw [leafPairs_length, hlimit] at hcon
      have hlt : 2 ^ (s :: rest).length < 2 ^ s_vars.length :=
        Nat.pow_lt_pow_right (by norm_num) hm
      have := Nat.eq_of_mul_eq_mul_right hL hcon
      omega

theorem mem_enum_snd_mem {dataset : List Row} {ir : IRow}
    (h : ir ∈ dataset.enum) : ir.2 ∈ dataset := by
  have := List.mem_map_of_mem Prod.snd h
  rwa [List.enum_map_snd] at this

theorem reassemble_ok_of_ne_nil {G : List (List IRow)} (h : G ≠ []) :
    ∃ df, reassemble G = .ok df := by
  unfold reassemble
  cases hg : G.getLast? with
  | none => exact absurd (List.getLast?_eq_none_iff.mp hg) h
  | some last => exact ⟨_, rfl⟩

/-- C3 (amended): with at least one protected attribute, all attributes
binary-valued, a non-empty dataset and every cell non-empty, `stop = 0`
makes every Group Balancer invocation exit before its first iteration, the
call succeeds with a maximum iteration count of `0`, and the returned
dataset's rows are a multiset permutation of the input rows — zero
duplications and zero removals. -/
theorem C3_amended_stop_zero_is_permutation
    (dataset : List Row) (s_vars : List ℕ) (label_name : ℕ) (rl : Option ℕ)
    (rng : ℕ → ℕ) (bfuel : ℕ)
    (hk : s_vars ≠ []) (hd : dataset ≠ [])
    (hbin : ∀ row ∈ dataset, ∀ s ∈ s_vars, colv row s = 0 ∨ colv row s = 1)
    (hcells : ∀ p ∈ leafPairs dataset.enum label_name s_vars (fun _ => true),
      cellOf dataset.enum p.1 label_name p.2 ≠ []) :
    ∃ df, fit_transform dataset s_vars label_name rl 0 rng bfuel =
        some (.ok (df, [], 0)) ∧
      Multiset.ofList (df.map Prod.snd) = Multiset.ofList dataset := by
  have hbin2 : ∀ ir ∈ dataset.enum, ∀ s ∈ s_vars,
      colv ir.2 s = 0 ∨ colv ir.2 s = 1 :=
    fun ir hir => hbin ir.2 (mem_enum_snd_mem hir)
  have hdne : dataset.enum ≠ [] := by
    intro he
    apply hd
    apply List.length_eq_zero.mp
    rw [← List.enum_length, he]
    rfl
  obtain ⟨ir0, hir0⟩ := List.exists_mem_of_ne_nil _ hdne
  have hLne : uniqLabels dataset.enum label_name ≠ [] :=
    List.ne_nil_of_mem
      (uniqInts_mem.mpr (List.mem_map.mpr ⟨ir0, hir0, rfl⟩))
  have hL : 1 ≤ (uniqLabels dataset.enum label_name).length :=
    List.length_pos.mpr hLne
  have hobs : ∀ s ∈ s_vars,
      (∃ ir ∈ dataset.enum, colv ir.2 s = 0) ∧
      (∃ ir ∈ dataset.enum, colv ir.2 s = 1) := by
    intro s hs
    constructor
    · have := value_observed hcells hLne hs false
      simpa using this
    · have := value_observed hcells hLne hs true
      simpa using this
  have hlimit : limitOf dataset.enum s_vars = 2 ^ s_vars.length :=
    limit_binary hbin2 hobs
  match s_vars, hk, hbin2, hcells, hobs, hlimit with
  | s :: rest, hk, hbin2, hcells, hobs, hlimit =>
    have hc0 : ∀ p ∈ leafPairs dataset.enum label_name rest
        (fun row => (fun _ : Row => true) row && (colv row s == 0)),
        cellOf dataset.enum p.1 label_name p.2 ≠ [] := by
      intro p hp
      exact hcells p (by rw [leafPairs]; exact List.mem_append_left _ hp)
    have hc1 : ∀ p ∈ leafPairs dataset.enum label_name rest
        (fun row => (fun _ : Row => true) row && (colv row s == 1)),
        cellOf dataset.enum p.1 label_name p.2 ≠ [] := by
      intro p hp
      exact hcells p (by rw [leafPairs]; exact List.mem_append_right _ hp)
    have hmlt : rest.length < (s :: rest).length := by simp
    have h0 := @sampleNode_stop_zero dataset.enum (s :: rest) label_name rl
      rng bfuel hdne hlimit hL rest
      (fun row => (fun _ : Row => true) row && (colv row s == 0)) hmlt hc0
    have h1 := @sampleNode_stop_zero dataset.enum (s :: rest) label_name rl
      rng bfuel hdne hlimit hL rest
      (fun row => (fun _ : Row => true) row && (colv row s == 1)) hmlt hc1
    have hglen : (([] : List (List IRow)) ++
        ((leafPairs dataset.enum label_name rest
          (fun row => (fun _ : Row => true) row && (colv row s == 0))).map
            fun p => cellOf dataset.enum p.1 label_name p.2) ++
        ((leafPairs dataset.enum label_name rest
          (fun row => (fun _ : Row => true) row && (colv row s == 1))).map
            fun p => cellOf dataset.enum p.1 label_name p.2)).length =
        limitOf dataset.enum (s :: rest) *
          (uniqLabels dataset.enum label_name).length := by
      rw [List.nil_append, ← List.map_append, List.length_map, ← leafPairs,
        leafPairs_length, hlimit]
    have hGne : (([] : List (List IRow)) ++
        ((leafPairs dataset.enum label_name rest
          (fun row => (fun _ : Row => true) row && (colv row s == 0))).map
            fun p => cellOf dataset.enum p.1 label_name p.2) ++
        ((leafPairs dataset.enum label_name rest
          (fun row => (fun _ : Row => true) row && (colv row s == 1))).map
            fun p => cellOf dataset.enum p.1 label_name p.2)) ≠ [] := by
      intro he
      have := congrArg List.length he
      rw [hglen] at this
      simp only [List.length_nil] at this
      have hpos : 0 < limitOf dataset.enum (s :: rest) := by
        rw [hlimit]
        exact pow_pos (by norm_num) _
      rcases Nat.mul_eq_zero.mp this with h | h <;> omega
    obtain ⟨df, hre⟩ := reassemble_ok_of_ne_nil hGne
    refine ⟨df, ?_, ?_⟩
    · unfold fit_transform
      simp only [sampleTop]
      rw [sampleNode, h0, h1]
      dsimp only
      rw [if_pos hglen, hre]
      rfl
    · have hsum := reassemble_ok_multiset hre
      rw [List.nil_append, ← List.map_append, ← leafPairs] at hsum
      rw [List.map_map] at hsum
      have hcellsum := leafPairs_cells_sum dataset.enum label_name
        (s :: rest) (fun _ => true) (fun ir h v hv => hbin2 ir h v hv)
      have hfilter : (dataset.enum.filter fun ir => (fun _ : Row => true) ir.2)
          = dataset.enum := List.filter_eq_self.mpr fun ir _ => rfl
      rw [hfilter] at hcellsum
      have : (df : Multiset IRow) = (dataset.enum : Multiset IRow) := by
        rw [hsum, ← hcellsum]
        rfl
      calc Multiset.ofList (df.map Prod.snd)
          = Multiset.map Prod.snd (df : Multiset IRow) := by
            rw [Multiset.map_coe]
        _ = Multiset.map Prod.snd (dataset.enum : Multiset IRow) := by rw [this]
        _ = Multiset.ofList (dataset.enum.map Prod.snd) := by
            rw [Multiset.map_coe]
        _ = Multiset.ofList dataset := by rw [List.enum_map_snd]

/-- C3 counterexample: with an *empty* protected-attribute list the premise
of the claim holds — all `2^0 × L` cells (here the single label class) are
non-empty — and `stop = 0`, yet no permuted dataset is returned: the base
case's weight computation at line 32 evaluates `len(d[cond])` with the
scalar condition `True`, a column-label lookup, and the call raises
`KeyError: True` before any balancing. -/
theorem C3_stop_zero_counterexample :
    (∀ p ∈ leafPairs ([[0]] : List Row).enum 0 [] (fun _ => true),
      cellOf ([[0]] : List Row).enum p.1 0 p.2 ≠ []) ∧
    fit_transform [[0]] [] 0 none 0 (fun _ => 0) 1 =
      some (.error .keyErrorTrue) := by
  constructor
  · decide
  · rfl

theorem C3_amended_stop_zero_is_permutation_witness :
    (([0] : List ℕ) ≠ []) ∧
    (([[0, 0], [0, 1], [1, 0], [1, 1]] : List Row) ≠ []) ∧
    (∀ row ∈ ([[0, 0], [0, 1], [1, 0], [1, 1]] : List Row), ∀ s ∈ ([0] : List ℕ),
      colv row s = 0 ∨ colv row s = 1) ∧
    (∀ p ∈ leafPairs ([[0, 0], [0, 1], [1, 0], [1, 1]] : List Row).enum 1 [0]
        (fun _ => true),
      cellOf ([[0, 0], [0, 1], [1, 0], [1, 1]] : List Row).enum p.1 1 p.2 ≠ []) ∧
    (∃ df, fit_transform [[0, 0], [0, 1], [1, 0], [1, 1]] [0] 1 none 0
        (fun _ => 0) 1 = some (.ok (df, [], 0)) ∧
      Multiset.ofList (df.map Prod.snd) =
        Multiset.ofList ([[0, 0], [0, 1], [1, 0], [1, 1]] : List Row)) :=
  ⟨by decide, by decide, by decide, by decide,
    C3_amended_stop_zero_is_permutation [[0, 0], [0, 1], [1, 0], [1, 1]] [0] 1
      none (fun _ => 0) 1 (by decide) (by decide) (by decide) (by decide)⟩

/-! ## Disjointness of the cells (claim C2) -/

theorem leafPairs_cond_imp {d : List IRow} {label : ℕ} :
    ∀ (rest : List ℕ) (cond : Row → Bool),
      ∀ p ∈ leafPairs d label rest cond, ∀ r : Row,
        p.1 r = true → cond r = true := by
  intro rest
  induction rest with
  | nil =>
    intro cond p hp r hr
    obtain ⟨l, hl, rfl⟩ := List.mem_map.mp hp
    exact hr
  | cons s rest ih =>
    intro cond p hp r hr
    rw [leafPairs] at hp
    rcases List.mem_append.mp hp with hp | hp
    · have := ih _ p hp r hr
      simp only [Bool.and_eq_true] at this
      exact this.1
    · have := ih _ p hp r hr
      simp only [Bool.and_eq_true] at this
      exact this.1

/-- Distinct leaf cells are disjoint: no row satisfies two of them (they
differ at some attribute bit or at the label value). -/
theorem leafPairs_pairwise_disjoint (d : List IRow) (label : ℕ) :
    ∀ (rest : List ℕ) (cond : Row → Bool),
      List.Pairwise (fun p q => ∀ ir : IRow,
        ¬((p.1 ir.2 && (colv ir.2 label == p.2)) = true ∧
          (q.1 ir.2 && (colv ir.2 label == q.2)) = true))
        (leafPairs d label rest cond) := by
  intro rest
  induction rest with
  | nil =>
    intro cond
    rw [leafPairs, List.pairwise_map]
    refine (uniqInts_nodup (colVals d label)).imp ?_
    intro l1 l2 hne ir hc
    obtain ⟨h1, h2⟩ := hc
    simp only [Bool.and_eq_true, beq_iff_eq] at h1 h2
    exact hne (h1.2.symm.trans h2.2)
  | cons s rest ih =>
    intro cond
    rw [leafPairs, List.pairwise_append]
    refine ⟨ih _, ih _, ?_⟩
    intro p hp q hq ir hc
    obtain ⟨h1, h2⟩ := hc
    simp only [Bool.and_eq_true] at h1 h2
    have hc0 := leafPairs_cond_imp rest _ p hp ir.2 h1.1
    have hc1 := leafPairs_cond_imp rest _ q hq ir.2 h2.1
    simp only [Bool.and_eq_true, beq_iff_eq] at hc0 hc1
    have : (0 : ℤ) = 1 := hc0.2.symm.trans hc1.2
    norm_num at this

/-- C2: for binary protected attributes, a successful debiasing call
balances exactly `2^k × L` groups — one per (combination, label value) leaf
pair, each a successful Group Balancer run on its cell — the returned
dataset's rows are exactly the multiset union of those balanced groups with
no group counted twice, and the (pre-balancing) cells are pairwise disjoint
subsets of the dataset whose multiset union is the whole (indexed)
dataset. -/
theorem C2_partition_and_reassembly
    (dataset : List Row) (s_vars : List ℕ) (label_name : ℕ) (rl : Option ℕ)
    (stop : ℤ) (rng : ℕ → ℕ) (bfuel : ℕ)
    (df : List IRow) (disps : List (List ℚ)) (it : ℕ)
    (hbin : ∀ row ∈ dataset, ∀ s ∈ s_vars, colv row s = 0 ∨ colv row s = 1)
    (h : fit_transform dataset s_vars label_name rl stop rng bfuel =
      some (.ok (df, disps, it))) :
    ∃ Gs : List (List IRow),
      Gs.length =
        2 ^ s_vars.length * (uniqLabels dataset.enum label_name).length ∧
      List.Forall₂ (BalancedFrom dataset.enum label_name rl stop rng bfuel)
        Gs (leafPairs dataset.enum label_name s_vars (fun _ => true)) ∧
      Multiset.ofList df = (Gs.map Multiset.ofList).sum ∧
      List.Pairwise (fun p q => ∀ ir : IRow,
        ¬((p.1 ir.2 && (colv ir.2 label_name == p.2)) = true ∧
          (q.1 ir.2 && (colv ir.2 label_name == q.2)) = true))
        (leafPairs dataset.enum label_name s_vars (fun _ => true)) ∧
      ((leafPairs dataset.enum label_name s_vars (fun _ => true)).map fun p =>
          Multiset.ofList (cellOf dataset.enum p.1 label_name p.2)).sum =
        Multiset.ofList dataset.enum := by
  have hbin2 : ∀ ir ∈ dataset.enum, ∀ s ∈ s_vars,
      colv ir.2 s = 0 ∨ colv ir.2 s = 1 :=
    fun ir hir => hbin ir.2 (mem_enum_snd_mem hir)
  have hunion : ((leafPairs dataset.enum label_name s_vars
        (fun _ => true)).map fun p =>
          Multiset.ofList (cellOf dataset.enum p.1 label_name p.2)).sum =
      Multiset.ofList dataset.enum := by
    have := leafPairs_cells_sum dataset.enum label_name s_vars
      (fun _ => true) hbin2
    rwa [List.filter_eq_self.mpr fun ir _ => rfl] at this
  unfold fit_transform at h
  cases s_vars with
  | nil =>
    cases hu : uniqLabels dataset.enum label_name with
    | nil => simp [sampleTop, hu] at h
    | cons a as => simp [sampleTop, hu] at h
  | cons s rest =>
    simp only [sampleTop] at h
    cases hroot : sampleNode dataset.enum (s :: rest) label_name rl stop rng
        bfuel (s :: rest) (fun _ => true) [] with
    | none => rw [hroot] at h; exact absurd h (by simp)
    | some x =>
      cases x with
      | error e => rw [hroot] at h; exact absurd h (by simp)
      | ok rr =>
        cases rr with
        | part G itx => rw [hroot] at h; exact absurd h (by simp)
        | assembled dfx dispx itx =>
          rw [hroot] at h
          have hinj := Except.ok.inj (Option.some.inj h)
          injection hinj with hdf hrest
          injection hrest with hdisp hit
          subst hdf
          obtain ⟨G1, k1, G2, k2, h0, h1, hlen, hre, -, -⟩ :=
            sampleNode_cons_assembled_inv hroot
          refine ⟨G1 ++ G2, ?_, ?_, ?_, leafPairs_pairwise_disjoint _ _ _ _,
            hunion⟩
          · have hfa := List.rel_append (sampleNode_part_inv h0)
              (sampleNode_part_inv h1)
            rw [hfa.length_eq, List.length_append, leafPairs_length,
              leafPairs_length, List.length_cons, pow_succ]
            ring
          · rw [leafPairs]
            exact List.rel_append (sampleNode_part_inv h0)
              (sampleNode_part_inv h1)
          · exact reassemble_ok_multiset hre

theorem C2_partition_and_reassembly_witness :
    (∀ row ∈ ([[0, 0], [1, 0]] : List Row), ∀ s ∈ ([0] : List ℕ),
      colv row s = 0 ∨ colv row s = 1) ∧
    (fit_transform [[0, 0], [1, 0]] [0] 1 none 0 (fun _ => 0) 1
      = some (.ok ([(0, [0, 0]), (1, [1, 0])], [], 0))) ∧
    (∃ Gs : List (List IRow),
      Gs.length =
        2 ^ ([0] : List ℕ).length *
          (uniqLabels ([[0, 0], [1, 0]] : List Row).enum 1).length ∧
      List.Forall₂ (BalancedFrom ([[0, 0], [1, 0]] : List Row).enum 1 none 0
          (fun _ => 0) 1)
        Gs (leafPairs ([[0, 0], [1, 0]] : List Row).enum 1 [0]
          (fun _ => true)) ∧
      Multiset.ofList [((0 : ℕ), ([0, 0] : Row)), (1, [1, 0])] =
        (Gs.map Multiset.ofList).sum ∧
      List.Pairwise (fun p q => ∀ ir : IRow,
        ¬((p.1 ir.2 && (colv ir.2 1 == p.2)) = true ∧
          (q.1 ir.2 && (colv ir.2 1 == q.2)) = true))
        (leafPairs ([[0, 0], [1, 0]] : List Row).enum 1 [0]
          (fun _ => true)) ∧
      ((leafPairs ([[0, 0], [1, 0]] : List Row).enum 1 [0]
          (fun _ => true)).map fun p =>
          Multiset.ofList (cellOf ([[0, 0], [1, 0]] : List Row).enum p.1 1
            p.2)).sum =
        Multiset.ofList ([[0, 0], [1, 0]] : List Row).enum) := by
  have hfit : fit_transform [[0, 0], [1, 0]] [0] 1 none 0 (fun _ => 0) 1
      = some (.ok ([(0, [0, 0]), (1, [1, 0])], [], 0)) := by
    norm_num [fit_transform, sampleTop, sampleNode, leafLoop, balanceCell, balance_set,
      balanceLoop, balanceBody, pickStep, w_exp_of, w_obs_of, cellOf,
      uniqLabels, uniqInts, colVals, colv, sortInts, insertSorted, applyRound,
      limitOf, reassemble, shuffle2, shuffleGo, lcg, List.enum, List.enumFrom]
  exact ⟨by decide, hfit,
    C2_partition_and_reassembly [[0, 0], [1, 0]] [0] 1 none 0 (fun _ => 0) 1
      [(0, [0, 0]), (1, [1, 0])] [] 0 (by decide) hfit⟩

theorem C6_amended_disparities_always_empty_witness :
    (fit_transform [[0, 1], [1, 1]] [0] 1 none 0 (fun _ => 0) 1 =
      some (.ok ([(0, [0, 1]), (1, [1, 1])], [], 0))) ∧
    ([] : List (List ℚ)) = [] := by
  have hfit : fit_transform [[0, 1], [1, 1]] [0] 1 none 0 (fun _ => 0) 1 =
      some (.ok ([(0, [0, 1]), (1, [1, 1])], [], 0)) := by
    norm_num [fit_transform, sampleTop, sampleNode, leafLoop, balanceCell, balance_set,
      balanceLoop, balanceBody, pickStep, w_exp_of, w_obs_of, cellOf,
      uniqLabels, uniqInts, colVals, colv, sortInts, insertSorted, applyRound,
      limitOf, reassemble, shuffle2, shuffleGo, lcg, List.enum, List.enumFrom]
  exact ⟨hfit,
    C6_amended_disparities_always_empty [[0, 1], [1, 1]] [0] 1 none 0
      (fun _ => 0) 1 [(0, [0, 1]), (1, [1, 1])] [] 0 hfit⟩

end DEMV
